import Mathlib

/-!
Shallow embedding of the read-pair CIGAR normalization utilities of
hivwholeseq (hivwholeseq/utils/mapping.py): mate-pair reconciliation
(fix_read_pair), the integrity predicate (test_read_pair_integrity), the
CIGAR interval algebra (get_range_good_cigars), the edge trimmers
(trim_short_cigars, trim_short_cigars_pair), the quality trimming policies
(trim_read_pair_low_quality, main_block_read_pair_low_quality) and the
cross-overhang trimmer (trim_read_pair_crossoverhangs), together with
theorems settling the specification's claims about them.

Conventions of the embedding:
* A pysam aligned read is a record of its mutable fields; the Python
  functions mutate reads in place, which is modelled by returning updated
  records.
* CIGAR block lengths are carried as `Int` because the source can produce
  intermediate negative lengths (trim_read_pair_crossoverhangs subtracts
  the trim amount without clamping).
* A Python `raise` is modelled by `Except PyErr`; quality strings are lists
  of character codes and Phred scores are obtained by subtracting 33, as in
  `np.fromstring(read.qual, np.int8) - 33`.
* Python slices `s[:n]` / `s[n:]` (including negative `n`) are modelled by
  `pysliceTake` / `pysliceDrop`.
-/

set_option autoImplicit false

/-- Python-level exceptions raised by the embedded functions. -/
inductive PyErr where
  | valueError (msg : String)
  | indexError
deriving DecidableEq, Repr

deriving instance DecidableEq for Except

/-- Python slice `s[:n]`, supporting negative `n` (counting from the end). -/
def pysliceTake {α : Type} (s : List α) (n : Int) : List α :=
  if 0 ≤ n then s.take n.toNat else s.take (s.length - (-n).toNat)

/-- Python slice `s[n:]`, supporting negative `n` (counting from the end). -/
def pysliceDrop {α : Type} (s : List α) (n : Int) : List α :=
  if 0 ≤ n then s.drop n.toNat else s.drop (s.length - (-n).toNat)

/-- A pysam aligned read, restricted to the fields used by
hivwholeseq.utils.mapping: sequence, quality string (character codes),
CIGAR (block type, block length), reference start, mate start, insert
size, and the reverse-strand flag. -/
structure AlignedRead where
  seq : List Char
  qual : List Nat
  cigar : List (Nat × Int)
  pos : Int
  mpos : Int
  isize : Int
  is_reverse : Bool
deriving DecidableEq, Repr

/-- pysam `read.rlen`: the length of the read sequence. -/
def AlignedRead.rlen (r : AlignedRead) : Int := r.seq.length

/-- `sum(bl for (bt, bl) in cigar if bt in (0, 2))`: the reference span of a
CIGAR (MATCH and DELETION blocks). -/
def sumMD : List (Nat × Int) → Int
  | [] => 0
  | (bt, bl) :: rest => (if bt = 0 ∨ bt = 2 then bl else 0) + sumMD rest

/-- `sum(bl for (bt, bl) in cigar if bt in (0, 1))`: the read span of a
CIGAR (MATCH and INSERTION blocks). -/
def sumMI : List (Nat × Int) → Int
  | [] => 0
  | (bt, bl) :: rest => (if bt = 0 ∨ bt = 1 then bl else 0) + sumMI rest

/-- Phred scores of a read: `np.fromstring(read.qual, np.int8) - 33`. -/
def phredOf (r : AlignedRead) : List Int :=
  r.qual.map (fun (c : Nat) => (c : Int) - 33)

abbrev ReadPair := AlignedRead × AlignedRead

/-- fix_read_pair (mapping.py 213-229): recompute the mate positions and the
insert sizes of a pair.  The forward slot is `reads[reads[0].is_reverse]`,
exactly as in the source (the boolean is used as a list index). -/
def fix_read_pair (reads : ReadPair) : ReadPair :=
  let i_fwd := reads.1.is_reverse
  let read_fwd := if i_fwd then reads.2 else reads.1
  let read_rev := if i_fwd then reads.1 else reads.2
  let isize := read_rev.pos - read_fwd.pos + sumMD read_rev.cigar
  let read_fwd' := { read_fwd with mpos := read_rev.pos, isize := isize }
  let read_rev' := { read_rev with mpos := read_fwd.pos, isize := -isize }
  if i_fwd then (read_rev', read_fwd') else (read_fwd', read_rev')

/-- test_read_pair_integrity (mapping.py 607-639): true iff the pair violates
one of the five consistency checks (fwd start < 0; mate positions not
mutual; insert-size signs wrong; insert-size equation wrong; CIGAR
MATCH+INSERTION sum differing from the read length). -/
def test_read_pair_integrity (read_pair : ReadPair) : Bool :=
  let i_fwd := read_pair.1.is_reverse
  let fwd := if i_fwd then read_pair.2 else read_pair.1
  let rev := if i_fwd then read_pair.1 else read_pair.2
  if fwd.pos < 0 then true
  else if read_pair.1.mpos ≠ read_pair.2.pos ∨ read_pair.2.mpos ≠ read_pair.1.pos then true
  else if fwd.isize ≤ 0 ∨ 0 ≤ rev.isize then true
  else if fwd.pos + fwd.isize ≠ rev.pos + sumMD rev.cigar then true
  else if sumMI read_pair.1.cigar ≠ read_pair.1.rlen ∨
          sumMI read_pair.2.cigar ≠ read_pair.2.rlen then true
  else false

/-- C8: for every read pair, fix_read_pair writes exactly four fields: each
read's mate position (the other read's start) and each read's insert size
(the forward slot gets `rev.pos - fwd.pos +` rev's reference span, the
reverse slot its negation); every other field of both reads is unchanged. -/
theorem C8_fix_read_pair_frame (a b : AlignedRead) :
    fix_read_pair (a, b) =
      if a.is_reverse then
        ({ a with mpos := b.pos, isize := -(a.pos - b.pos + sumMD a.cigar) },
         { b with mpos := a.pos, isize := a.pos - b.pos + sumMD a.cigar })
      else
        ({ a with mpos := b.pos, isize := b.pos - a.pos + sumMD b.cigar },
         { b with mpos := a.pos, isize := -(b.pos - a.pos + sumMD b.cigar) }) := by
  by_cases h : a.is_reverse <;> simp [fix_read_pair, h]

/-- First read of the C1 counterexample pair: forward, start 100. -/
def c1ReadA : AlignedRead :=
  { seq := List.replicate 10 'A', qual := List.replicate 10 70,
    cigar := [(0, 10)], pos := 100, mpos := 0, isize := 0, is_reverse := false }

/-- Second read of the C1 counterexample pair: reverse, start 0, so the
recomputed insert size is 0 - 100 + 10 = -90. -/
def c1ReadB : AlignedRead :=
  { seq := List.replicate 10 'A', qual := List.replicate 10 70,
    cigar := [(0, 10)], pos := 0, mpos := 0, isize := 0, is_reverse := true }

/-- C1 counterexample: a pair satisfying the claim's proviso (non-negative
starts, CIGAR MATCH+INSERTION sums equal to the sequence lengths) on which
the integrity test still returns true after fix_read_pair, because the
recomputed insert size is negative and the sign check trips. -/
theorem C1_cex :
    (0 ≤ c1ReadA.pos ∧ 0 ≤ c1ReadB.pos ∧
     sumMI c1ReadA.cigar = c1ReadA.rlen ∧ sumMI c1ReadB.cigar = c1ReadB.rlen) ∧
    test_read_pair_integrity (fix_read_pair (c1ReadA, c1ReadB)) = true := by
  decide

/-- C1 (amended): for every read pair with non-negative starts, CIGAR
MATCH+INSERTION sums equal to the sequence lengths, and a positive
recomputed insert size (reverse slot's start plus reference span minus the
forward slot's start), test_read_pair_integrity returns false after
fix_read_pair. -/
theorem C1_fix_then_integrity (a b : AlignedRead)
    (ha : 0 ≤ a.pos) (hb : 0 ≤ b.pos)
    (hca : sumMI a.cigar = a.rlen) (hcb : sumMI b.cigar = b.rlen)
    (hpos : 0 < (if a.is_reverse then a else b).pos
              + sumMD (if a.is_reverse then a else b).cigar
              - (if a.is_reverse then b else a).pos) :
    test_read_pair_integrity (fix_read_pair (a, b)) = false := by
  by_cases h : a.is_reverse <;>
    simp only [fix_read_pair, test_read_pair_integrity, AlignedRead.rlen, h] <;>
    simp_all [AlignedRead.rlen] <;>
    omega

/-- Criterion for a good CIGAR block (mapping.py 60):
`(x[0] == 0) and (x[1] >= match_len_min)`. -/
def goodCigar (match_len_min : Int) (b : Nat × Int) : Bool :=
  b.1 == 0 && decide (match_len_min ≤ b.2)

/-- Index of the first good CIGAR block (`tmp[0]` in mapping.py 66). -/
def firstGoodCigar (match_len_min : Int) (cigar : List (Nat × Int)) : Nat :=
  cigar.findIdx (goodCigar match_len_min)

/-- Index of the last good CIGAR block (`tmp[-1]` in mapping.py 67). -/
def lastGoodCigar (match_len_min : Int) (cigar : List (Nat × Int)) : Nat :=
  cigar.length - 1 - cigar.reverse.findIdx (goodCigar match_len_min)

/-- The accumulation loop of get_range_good_cigars (mapping.py 72-95):
MATCH advances both offsets, INSERTION the read offset only, DELETION the
reference offset only; any other block type raises ValueError. -/
def walkBlocks : List (Nat × Int) → Int → Int → Except PyErr (Int × Int)
  | [], r, f => .ok (r, f)
  | (bt, bl) :: rest, r, f =>
    if bt = 0 then walkBlocks rest (r + bl) (f + bl)
    else if bt = 1 then walkBlocks rest (r + bl) f
    else if bt = 2 then walkBlocks rest r (f + bl)
    else .error (.valueError ("CIGAR type " ++ toString bt ++ " not recognized"))

/-- get_range_good_cigars (mapping.py 55-112): the read- and reference-space
ranges spanned from the first to the last good CIGAR block, trimmed by
trim_left / trim_right on a side whose good block is not the physical
edge; `none` when no good block exists. -/
def get_range_good_cigars (cigar : List (Nat × Int)) (pos : Int)
    (match_len_min trim_left trim_right : Int) :
    Except PyErr (Option ((Int × Int) × (Int × Int))) :=
  if !(cigar.any (goodCigar match_len_min)) then .ok none
  else
    let first := firstGoodCigar match_len_min cigar
    let last := lastGoodCigar match_len_min cigar
    match walkBlocks (cigar.take first) 0 pos with
    | .error e => .error e
    | .ok (start_read, start_ref) =>
      match walkBlocks ((cigar.drop first).take (last + 1 - first)) start_read start_ref with
      | .error e => .error e
      | .ok (end_read, end_ref) =>
        let start_read' := if first ≠ 0 then start_read + trim_left else start_read
        let start_ref' := if first ≠ 0 then start_ref + trim_left else start_ref
        let end_read' := if last ≠ cigar.length - 1 then end_read - trim_right else end_read
        let end_ref' := if last ≠ cigar.length - 1 then end_ref - trim_right else end_ref
        .ok (some ((start_read', end_read'), (start_ref', end_ref')))

/-- The block walk succeeds whenever every block type is recognized. -/
theorem walkBlocks_ok (blocks : List (Nat × Int)) (r f : Int)
    (h : ∀ b ∈ blocks, b.1 = 0 ∨ b.1 = 1 ∨ b.1 = 2) :
    ∃ p, walkBlocks blocks r f = .ok p := by
  induction blocks generalizing r f with
  | nil => exact ⟨(r, f), rfl⟩
  | cons b rest ih =>
    have hrest : ∀ x ∈ rest, x.1 = 0 ∨ x.1 = 1 ∨ x.1 = 2 :=
      fun x hx => h x (List.mem_cons_of_mem _ hx)
    obtain ⟨bt, bl⟩ := b
    have hb : bt = 0 ∨ bt = 1 ∨ bt = 2 := by
      simpa using h (bt, bl) (List.mem_cons_self _ _)
    rcases hb with rfl | rfl | rfl
    · simpa [walkBlocks] using ih (r + bl) (f + bl) hrest
    · simpa [walkBlocks] using ih (r + bl) f hrest
    · simpa [walkBlocks] using ih r (f + bl) hrest

/-- Over MATCH-only blocks the walk advances read and reference equally. -/
theorem walkBlocks_match (blocks : List (Nat × Int)) (r f er ef : Int)
    (hm : ∀ b ∈ blocks, b.1 = 0)
    (hw : walkBlocks blocks r f = .ok (er, ef)) : er - r = ef - f := by
  induction blocks generalizing r f with
  | nil =>
    simp only [walkBlocks, Except.ok.injEq, Prod.mk.injEq] at hw
    omega
  | cons b rest ih =>
    obtain ⟨bt, bl⟩ := b
    have h0 : bt = 0 := hm (bt, bl) (List.mem_cons_self _ _)
    rw [h0] at hw
    simp only [walkBlocks, if_pos rfl] at hw
    have := ih (r + bl) (f + bl) (fun x hx => hm x (List.mem_cons_of_mem _ hx)) hw
    omega

/-- C2 counterexample: the claim as stated fails twice.  A lone INSERTION
block of length 30 meets "at least one block of length >= minMatchLen"
(30), yet get_range_good_cigars returns the null range; and with a good
MATCH block present, an unrecognized block type before it makes the
function raise instead of returning a pair of ranges. -/
theorem C2_cex :
    (([((1 : Nat), (30 : Int))].any (fun b => decide ((30 : Int) ≤ b.2)) = true ∧
      get_range_good_cigars [(1, 30)] 0 30 3 3 = .ok none) ∧
     ([((7 : Nat), (1 : Int)), (0, 30)].any (fun b => decide ((30 : Int) ≤ b.2)) = true ∧
      get_range_good_cigars [(7, 1), (0, 30)] 0 30 3 3 =
        .error (.valueError ("CIGAR type " ++ toString (7 : Nat) ++ " not recognized")))) := by
  decide

/-- C2 (amended): for every CIGAR with at least one good block (a MATCH of
length >= match_len_min) and all block types recognized,
get_range_good_cigars returns a non-null pair of ranges whose read-space
length equals the reference-space length whenever the blocks inside the
trusted range are all MATCH; and whenever zero good blocks exist it
returns the null range. -/
theorem C2_get_range_good_cigars (cigar : List (Nat × Int)) (pos mlm tl tr : Int) :
    ((cigar.any (goodCigar mlm) = true ∧ (∀ b ∈ cigar, b.1 = 0 ∨ b.1 = 1 ∨ b.1 = 2)) →
      ∃ sr er sf ef,
        get_range_good_cigars cigar pos mlm tl tr = .ok (some ((sr, er), (sf, ef))) ∧
        ((∀ b ∈ (cigar.drop (firstGoodCigar mlm cigar)).take
              (lastGoodCigar mlm cigar + 1 - firstGoodCigar mlm cigar), b.1 = 0) →
          er - sr = ef - sf)) ∧
    (cigar.any (goodCigar mlm) = false →
      get_range_good_cigars cigar pos mlm tl tr = .ok none) := by
  constructor
  · rintro ⟨hany, hrec⟩
    obtain ⟨⟨sr0, sf0⟩, hw1⟩ := walkBlocks_ok (cigar.take (firstGoodCigar mlm cigar)) 0 pos
      (fun b hb => hrec b (List.mem_of_mem_take hb))
    obtain ⟨⟨er0, ef0⟩, hw2⟩ := walkBlocks_ok
      ((cigar.drop (firstGoodCigar mlm cigar)).take
        (lastGoodCigar mlm cigar + 1 - firstGoodCigar mlm cigar)) sr0 sf0
      (fun b hb => hrec b (List.mem_of_mem_drop (List.mem_of_mem_take hb)))
    have hres : get_range_good_cigars cigar pos mlm tl tr =
        .ok (some (((if firstGoodCigar mlm cigar ≠ 0 then sr0 + tl else sr0),
                    (if lastGoodCigar mlm cigar ≠ cigar.length - 1 then er0 - tr else er0)),
                   ((if firstGoodCigar mlm cigar ≠ 0 then sf0 + tl else sf0),
                    (if lastGoodCigar mlm cigar ≠ cigar.length - 1 then ef0 - tr else ef0)))) := by
      simp only [get_range_good_cigars, hany, Bool.not_true, Bool.false_eq_true, if_false,
        hw1, hw2]
    refine ⟨_, _, _, _, hres, ?_⟩
    intro hmid
    have hd := walkBlocks_match _ sr0 sf0 er0 ef0 hmid hw2
    split_ifs <;> omega
  · intro hnone
    simp [get_range_good_cigars, hnone]

/-- C2 witness: the amended theorem applied to a CIGAR with one good MATCH
block behind noise blocks, and to a CIGAR with no good block. -/
theorem C2_get_range_good_cigars_witness :
    (∃ sr er sf ef,
      get_range_good_cigars [(0, 5), (1, 2), (0, 30)] 7 30 3 3 =
        .ok (some ((sr, er), (sf, ef))) ∧ er - sr = ef - sf) ∧
    get_range_good_cigars [(1, 29)] 0 30 3 3 = .ok none := by
  constructor
  · obtain ⟨sr, er, sf, ef, h1, h2⟩ :=
      (C2_get_range_good_cigars [(0, 5), (1, 2), (0, 30)] 7 30 3 3).1 ⟨by decide, by decide⟩
    exact ⟨sr, er, sf, ef, h1, h2 (by decide)⟩
  · exact (C2_get_range_good_cigars [(1, 29)] 0 30 3 3).2 (by decide)

/-- Left-edge trigger of trim_short_cigars (mapping.py 144):
`(cigar[0][0] != 0) or (cigar[0][1] < match_len_min)`.  The empty case is
guarded by the IndexError raised before this test is reached. -/
def needsLeftTrim (match_len_min : Int) : List (Nat × Int) → Bool
  | [] => true
  | (bt, bl) :: _ => bt != 0 || decide (bl < match_len_min)

/-- Right-edge trigger of trim_short_cigars (mapping.py 180):
`(cigar[-1][0] != 0) or (cigar[-1][1] < match_len_min)`. -/
def needsRightTrim (match_len_min : Int) (cigar : List (Nat × Int)) : Bool :=
  match cigar.getLast? with
  | none => true
  | some (bt, bl) => bt != 0 || decide (bl < match_len_min)

/-- The left scan of trim_short_cigars (mapping.py 147-170): DELETION
advances the reference offset, INSERTION the read offset, any other short
block both; the first other block of length >= match_len_min anchors the
trim and is rewritten as a MATCH shortened by trim_pad.  Returns the new
cigar with the new reference and read offsets, or `none` when the loop
completes without an anchor (the for-else branch). -/
def tscScanLeft (match_len_min trim_pad : Int) :
    List (Nat × Int) → Int → Int → Option (List (Nat × Int) × Int × Int)
  | [], _, _ => none
  | (bt, bl) :: rest, pos_ref, pos_read =>
    if bt = 2 then tscScanLeft match_len_min trim_pad rest (pos_ref + bl) pos_read
    else if bt = 1 then tscScanLeft match_len_min trim_pad rest pos_ref (pos_read + bl)
    else if bl < match_len_min then
      tscScanLeft match_len_min trim_pad rest (pos_ref + bl) (pos_read + bl)
    else some ((0, bl - trim_pad) :: rest, pos_ref + trim_pad, pos_read + trim_pad)

/-- The left-trim phase of trim_short_cigars (mapping.py 143-176, without
the failure policy): a no-op when the first block is already a long MATCH,
otherwise the anchored rewrite; `none` when the scan finds no anchor. -/
def tscTrimLeft (match_len_min trim_pad : Int) (read : AlignedRead) : Option AlignedRead :=
  if !(needsLeftTrim match_len_min read.cigar) then some read
  else
    match tscScanLeft match_len_min trim_pad read.cigar read.pos 0 with
    | none => none
    | some (cigar_new, pos_ref, pos_read) =>
      some { read with seq := pysliceDrop read.seq pos_read,
                       qual := pysliceDrop read.qual pos_read,
                       cigar := cigar_new, pos := pos_ref }

/-- The right scan of trim_short_cigars (mapping.py 181-201), walking the
reversed CIGAR: DELETION is skipped, INSERTION and short other blocks move
the read offset left; the first other block of length >= match_len_min
anchors the trim.  Returns the new cigar and read offset, or `none` when
no anchor exists. -/
def tscScanRight (match_len_min trim_pad : Int) :
    List (Nat × Int) → Int → Option (List (Nat × Int) × Int)
  | [], _ => none
  | (bt, bl) :: rest_rev, pos_read =>
    if bt = 2 then tscScanRight match_len_min trim_pad rest_rev pos_read
    else if bt = 1 then tscScanRight match_len_min trim_pad rest_rev (pos_read - bl)
    else if bl < match_len_min then
      tscScanRight match_len_min trim_pad rest_rev (pos_read - bl)
    else some (rest_rev.reverse ++ [(0, bl - trim_pad)], pos_read - trim_pad)

/-- The right-trim phase of trim_short_cigars (mapping.py 179-207, without
the failure policy). -/
def tscTrimRight (match_len_min trim_pad : Int) (read : AlignedRead) : Option AlignedRead :=
  if !(needsRightTrim match_len_min read.cigar) then some read
  else
    match tscScanRight match_len_min trim_pad read.cigar.reverse (read.seq.length : Int) with
    | none => none
    | some (cigar_new, pos_read) =>
      some { read with seq := pysliceTake read.seq pos_read,
                       qual := pysliceTake read.qual pos_read,
                       cigar := cigar_new }

/-- trim_short_cigars (mapping.py 133-210).  With `throw = true` the result
is `.error` on an untrimmable side and `.ok (none, read)` on success (the
Python function returns None); with `throw = false` it is
`.ok (some true, read)` on an untrimmable side (the discard signal) and
`.ok (some false, read)` on success.  An empty CIGAR raises IndexError at
`cigar[0]`. -/
def trim_short_cigars (match_len_min trim_pad : Int) (throw : Bool) (read : AlignedRead) :
    Except PyErr (Option Bool × AlignedRead) :=
  match read.cigar with
  | [] => .error .indexError
  | _ :: _ =>
    match tscTrimLeft match_len_min trim_pad read with
    | none =>
      if throw then .error (.valueError "Read too short to be trimmed from left")
      else .ok (some true, read)
    | some r1 =>
      match r1.cigar with
      | [] => .error .indexError
      | _ :: _ =>
        match tscTrimRight match_len_min trim_pad r1 with
        | none =>
          if throw then .error (.valueError "Read too short to be trimmed from right")
          else .ok (some true, r1)
        | some r2 => .ok (if throw then none else some false, r2)

/-- trim_short_cigars_pair (mapping.py 232-236): trim both reads of the
pair, ignoring the per-read return values, then fix the pair. -/
def trim_short_cigars_pair (match_len_min trim_pad : Int) (throw : Bool) (reads : ReadPair) :
    Except PyErr ReadPair :=
  match trim_short_cigars match_len_min trim_pad throw reads.1 with
  | .error e => .error e
  | .ok (_, r1) =>
    match trim_short_cigars match_len_min trim_pad throw reads.2 with
    | .error e => .error e
    | .ok (_, r2) => .ok (fix_read_pair (r1, r2))

/-- A CIGAR block that can anchor a trim in trim_short_cigars: any block
whose type is neither INSERTION nor DELETION, of length >= match_len_min. -/
def anchorBlock (match_len_min : Int) (b : Nat × Int) : Bool :=
  b.1 != 1 && b.1 != 2 && decide (match_len_min ≤ b.2)

/-- Whether some block of the CIGAR can anchor a trim. -/
def hasAnchor (match_len_min : Int) (cigar : List (Nat × Int)) : Bool :=
  cigar.any (anchorBlock match_len_min)

theorem hasAnchor_reverse (mlm : Int) (c : List (Nat × Int)) :
    hasAnchor mlm c.reverse = hasAnchor mlm c := by
  simp [hasAnchor]

/-- The left scan fails exactly when no block can anchor a trim. -/
theorem tscScanLeft_none_iff (mlm pad : Int) (c : List (Nat × Int)) (pr pd : Int) :
    tscScanLeft mlm pad c pr pd = none ↔ hasAnchor mlm c = false := by
  induction c generalizing pr pd with
  | nil => simp [tscScanLeft, hasAnchor]
  | cons b rest ih =>
    obtain ⟨bt, bl⟩ := b
    by_cases h2 : bt = 2
    · subst h2
      simp [tscScanLeft, hasAnchor, anchorBlock, ih, List.any_cons]
    · by_cases h1 : bt = 1
      · subst h1
        simp [tscScanLeft, hasAnchor, anchorBlock, ih, List.any_cons]
      · by_cases hs : bl < mlm
        · simp [tscScanLeft, h1, h2, hs, hasAnchor, anchorBlock, ih, List.any_cons]
        · simp [tscScanLeft, h1, h2, hs, hasAnchor, anchorBlock, List.any_cons]

/-- The right scan fails exactly when no block can anchor a trim. -/
theorem tscScanRight_none_iff (mlm pad : Int) (c : List (Nat × Int)) (pd : Int) :
    tscScanRight mlm pad c pd = none ↔ hasAnchor mlm c = false := by
  induction c generalizing pd with
  | nil => simp [tscScanRight, hasAnchor]
  | cons b rest ih =>
    obtain ⟨bt, bl⟩ := b
    by_cases h2 : bt = 2
    · subst h2
      simp [tscScanRight, hasAnchor, anchorBlock, ih, List.any_cons]
    · by_cases h1 : bt = 1
      · subst h1
        simp [tscScanRight, hasAnchor, anchorBlock, ih, List.any_cons]
      · by_cases hs : bl < mlm
        · simp [tscScanRight, h1, h2, hs, hasAnchor, anchorBlock, ih, List.any_cons]
        · simp [tscScanRight, h1, h2, hs, hasAnchor, anchorBlock, List.any_cons]

/-- The left-trim phase fails exactly when the edge triggers the trim and
no block can anchor it. -/
theorem tscTrimLeft_none_iff (mlm pad : Int) (r : AlignedRead) :
    tscTrimLeft mlm pad r = none ↔
      (needsLeftTrim mlm r.cigar = true ∧ hasAnchor mlm r.cigar = false) := by
  by_cases hn : needsLeftTrim mlm r.cigar
  · rcases hs : tscScanLeft mlm pad r.cigar r.pos 0 with _ | ⟨c', pr, pd⟩
    · simp [tscTrimLeft, hn, hs, (tscScanLeft_none_iff mlm pad _ _ _).mp hs]
    · have := (tscScanLeft_none_iff mlm pad r.cigar r.pos 0)
      simp [tscTrimLeft, hn, hs] at this ⊢
      exact this
  · simp [tscTrimLeft, hn]

/-- The right-trim phase fails exactly when the edge triggers the trim and
no block can anchor it. -/
theorem tscTrimRight_none_iff (mlm pad : Int) (r : AlignedRead) :
    tscTrimRight mlm pad r = none ↔
      (needsRightTrim mlm r.cigar = true ∧ hasAnchor mlm r.cigar = false) := by
  by_cases hn : needsRightTrim mlm r.cigar
  · rcases hs : tscScanRight mlm pad r.cigar.reverse (r.seq.length : Int) with _ | ⟨c', pd⟩
    · have := (tscScanRight_none_iff mlm pad _ _).mp hs
      rw [hasAnchor_reverse] at this
      simp [tscTrimRight, hn, hs, this]
    · have := (tscScanRight_none_iff mlm pad r.cigar.reverse (r.seq.length : Int))
      rw [hasAnchor_reverse] at this
      simp [tscTrimRight, hn, hs] at this ⊢
      exact this
  · simp [tscTrimRight, hn]

/-- A successful left scan returns a non-empty cigar. -/
theorem tscScanLeft_some_ne_nil (mlm pad : Int) (c : List (Nat × Int)) (pr pd : Int)
    (c' : List (Nat × Int)) (pr' pd' : Int)
    (h : tscScanLeft mlm pad c pr pd = some (c', pr', pd')) : c' ≠ [] := by
  induction c generalizing pr pd with
  | nil => simp [tscScanLeft] at h
  | cons b rest ih =>
    obtain ⟨bt, bl⟩ := b
    by_cases h2 : bt = 2
    · subst h2; simp only [tscScanLeft, if_pos rfl] at h; exact ih _ _ h
    · by_cases h1 : bt = 1
      · subst h1; simp only [tscScanLeft, if_neg h2, if_pos rfl] at h
        exact ih _ _ h
      · by_cases hs : bl < mlm
        · simp only [tscScanLeft, if_neg h2, if_neg h1, if_pos hs] at h; exact ih _ _ h
        · simp only [tscScanLeft, if_neg h2, if_neg h1, if_neg hs, Option.some.injEq,
            Prod.mk.injEq] at h
          rw [← h.1]
          simp

/-- A successful left trim returns a read with a non-empty cigar. -/
theorem tscTrimLeft_cigar_ne_nil (mlm pad : Int) (r r1 : AlignedRead)
    (hne : r.cigar ≠ []) (h : tscTrimLeft mlm pad r = some r1) : r1.cigar ≠ [] := by
  by_cases hn : needsLeftTrim mlm r.cigar
  · rcases hs : tscScanLeft mlm pad r.cigar r.pos 0 with _ | ⟨c', pr, pd⟩
    · simp [tscTrimLeft, hn, hs] at h
    · simp only [tscTrimLeft, hn, Bool.not_true, Bool.false_eq_true, if_false, hs,
        Option.some.injEq] at h
      rw [← h]
      exact tscScanLeft_some_ne_nil mlm pad _ _ _ _ _ _ hs
  · simp only [tscTrimLeft, hn, Bool.not_false, if_true, Option.some.injEq] at h
    rw [← h]
    exact hne

/-- The failure condition of trim_short_cigars: a side that triggers
trimming has no anchoring block (for the right side, on the read produced
by the left phase). -/
def tscFailCondition (mlm pad : Int) (read : AlignedRead) : Prop :=
  (needsLeftTrim mlm read.cigar = true ∧ hasAnchor mlm read.cigar = false) ∨
  (∃ r1, tscTrimLeft mlm pad read = some r1 ∧
    needsRightTrim mlm r1.cigar = true ∧ hasAnchor mlm r1.cigar = false)

/-- C5 (amended): trim_short_cigars raises exactly when throw is true and a
side being trimmed has no anchoring block of length >= match_len_min,
where an anchoring block is any block whose operation code is neither
INSERTION nor DELETION (not only MATCH); with throw false it returns the
discard signal True in exactly that case, and False when trimming (or
no-op) succeeds on both sides. -/
theorem C5_trim_short_cigars_failure (read : AlignedRead) (mlm pad : Int)
    (h : read.cigar ≠ []) :
    ((∃ e, trim_short_cigars mlm pad true read = .error e) ↔
      tscFailCondition mlm pad read) ∧
    ((∃ r, trim_short_cigars mlm pad false read = .ok (some true, r)) ↔
      tscFailCondition mlm pad read) ∧
    ((∃ r, trim_short_cigars mlm pad false read = .ok (some false, r)) ↔
      ¬ tscFailCondition mlm pad read) := by
  rcases hc : read.cigar with _ | ⟨b0, rest0⟩
  · exact absurd hc h
  rcases hL : tscTrimLeft mlm pad read with _ | r1
  · have hP : tscFailCondition mlm pad read :=
      Or.inl ((tscTrimLeft_none_iff mlm pad read).mp hL)
    refine ⟨?_, ?_, ?_⟩ <;> simp [trim_short_cigars, hc, hL, hP]
  · have hne1 : r1.cigar ≠ [] := tscTrimLeft_cigar_ne_nil mlm pad read r1 h hL
    rcases hc1 : r1.cigar with _ | ⟨b1, rest1⟩
    · exact absurd hc1 hne1
    rcases hR : tscTrimRight mlm pad r1 with _ | r2
    · have hP : tscFailCondition mlm pad read :=
        Or.inr ⟨r1, hL, hc1 ▸ (tscTrimRight_none_iff mlm pad r1).mp hR⟩
      refine ⟨?_, ?_, ?_⟩ <;> simp [trim_short_cigars, hc, hL, hc1, hR, hP]
    · have hnP : ¬ tscFailCondition mlm pad read := by
        rintro (⟨hn, ha⟩ | ⟨r1', hL', hn, ha⟩)
        · have := (tscTrimLeft_none_iff mlm pad read).mpr ⟨hn, ha⟩
          rw [hL] at this
          exact Option.noConfusion this
        · rw [hL] at hL'
          injection hL' with he
          subst he
          have := (tscTrimRight_none_iff mlm pad r1).mpr ⟨hn, ha⟩
          rw [hR] at this
          exact Option.noConfusion this
      refine ⟨?_, ?_, ?_⟩ <;> simp [trim_short_cigars, hc, hL, hc1, hR, hnP]

/-- C5 counterexample read: no MATCH block at all, but an exotic block of
length 30 that can anchor the left trim. -/
def c5Read : AlignedRead :=
  { seq := List.replicate 35 'A', qual := List.replicate 35 70,
    cigar := [(1, 5), (7, 30)], pos := 0, mpos := 0, isize := 0, is_reverse := false }

/-- C5 counterexample: a read with no MATCH block of length >= 20 anywhere,
on which trim_short_cigars with throw set does not raise (the exotic block
of length 30 anchors the trim), refuting "raises exactly when throw is
true and the read has no MATCH block of length >= match_len_min". -/
theorem C5_cex :
    (c5Read.cigar.all (fun b => !(b.1 == 0 && decide ((20 : Int) ≤ b.2))) = true) ∧
    ∃ v, trim_short_cigars 20 3 true c5Read = .ok v := by
  exact ⟨by decide, _, rfl⟩

/-- C5 witness: a read whose only block is a short MATCH is untrimmable:
with throw set it raises, without it signals discard. -/
def c5WitRead : AlignedRead :=
  { seq := List.replicate 5 'A', qual := List.replicate 5 70,
    cigar := [(0, 5)], pos := 0, mpos := 0, isize := 0, is_reverse := false }

theorem C5_trim_short_cigars_failure_witness :
    (∃ e, trim_short_cigars 20 3 true c5WitRead = .error e) ∧
    (∃ r, trim_short_cigars 20 3 false c5WitRead = .ok (some true, r)) := by
  have h := C5_trim_short_cigars_failure c5WitRead 20 3 (by decide)
  have hP : tscFailCondition 20 3 c5WitRead := Or.inl ⟨by decide, by decide⟩
  exact ⟨h.1.mpr hP, h.2.1.mpr hP⟩

/-- With throw false and a non-empty CIGAR, trim_short_cigars returns
normally (with either the discard signal or the trimmed read). -/
theorem trim_short_cigars_false_ok (mlm pad : Int) (read : AlignedRead)
    (h : read.cigar ≠ []) :
    ∃ v, trim_short_cigars mlm pad false read = .ok v := by
  rcases hc : read.cigar with _ | ⟨b0, rest0⟩
  · exact absurd hc h
  rcases hL : tscTrimLeft mlm pad read with _ | r1
  · exact ⟨(some true, read), by simp [trim_short_cigars, hc, hL]⟩
  · have hne1 : r1.cigar ≠ [] := tscTrimLeft_cigar_ne_nil mlm pad read r1 h hL
    rcases hc1 : r1.cigar with _ | ⟨b1, rest1⟩
    · exact absurd hc1 hne1
    rcases hR : tscTrimRight mlm pad r1 with _ | r2
    · exact ⟨(some true, r1), by simp [trim_short_cigars, hc, hL, hc1, hR]⟩
    · exact ⟨(some false, r2), by simp [trim_short_cigars, hc, hL, hc1, hR]⟩

/-- C9: with throw false, trim_short_cigars_pair never raises and never
signals discard for untrimmable reads: the per-read boolean failure
signals are dropped, fix_read_pair is applied unconditionally to whatever
state the two reads were left in, and the call returns normally. -/
theorem C9_trim_short_cigars_pair_no_throw (reads : ReadPair) (mlm pad : Int)
    (h1 : reads.1.cigar ≠ []) (h2 : reads.2.cigar ≠ []) :
    ∃ a b, trim_short_cigars mlm pad false reads.1 = .ok a ∧
      trim_short_cigars mlm pad false reads.2 = .ok b ∧
      trim_short_cigars_pair mlm pad false reads = .ok (fix_read_pair (a.2, b.2)) := by
  obtain ⟨a, hA⟩ := trim_short_cigars_false_ok mlm pad reads.1 h1
  obtain ⟨b, hB⟩ := trim_short_cigars_false_ok mlm pad reads.2 h2
  exact ⟨a, b, hA, hB, by simp [trim_short_cigars_pair, hA, hB]⟩

/-- C9 witness: the theorem applied to a pair whose first read cannot be
trimmed (its only MATCH block is shorter than match_len_min). -/
theorem C9_trim_short_cigars_pair_no_throw_witness :
    ∃ a b, trim_short_cigars 20 3 false
        { seq := List.replicate 5 'A', qual := List.replicate 5 70,
          cigar := [(0, 5)], pos := 0, mpos := 10, isize := 0, is_reverse := false } = .ok a ∧
      trim_short_cigars 20 3 false
        { seq := List.replicate 30 'A', qual := List.replicate 30 70,
          cigar := [(0, 30)], pos := 10, mpos := 0, isize := 0, is_reverse := true } = .ok b ∧
      trim_short_cigars_pair 20 3 false
        ({ seq := List.replicate 5 'A', qual := List.replicate 5 70,
           cigar := [(0, 5)], pos := 0, mpos := 10, isize := 0, is_reverse := false },
         { seq := List.replicate 30 'A', qual := List.replicate 30 70,
           cigar := [(0, 30)], pos := 10, mpos := 0, isize := 0, is_reverse := true }) =
        .ok (fix_read_pair (a.2, b.2)) :=
  C9_trim_short_cigars_pair_no_throw
    ({ seq := List.replicate 5 'A', qual := List.replicate 5 70,
       cigar := [(0, 5)], pos := 0, mpos := 10, isize := 0, is_reverse := false },
     { seq := List.replicate 30 'A', qual := List.replicate 30 70,
       cigar := [(0, 30)], pos := 10, mpos := 0, isize := 0, is_reverse := true })
    20 3 (by decide) (by decide)

/-- C10: trim_short_cigars never raises a format error on an unrecognized
CIGAR operation code: its only errors are the two too-short ValueErrors;
an exotic leading block of length >= match_len_min anchors the left trim
and is rewritten as a MATCH run of length (length - trim_pad); by
contrast, get_range_good_cigars does raise ValueError on such codes. -/
theorem C10_exotic_cigars :
    (∀ (read : AlignedRead) (mlm pad : Int) (throw : Bool) (e : PyErr),
      read.cigar ≠ [] → trim_short_cigars mlm pad throw read = .error e →
      (e = .valueError "Read too short to be trimmed from left" ∨
       e = .valueError "Read too short to be trimmed from right")) ∧
    (∀ (read : AlignedRead) (bt : Nat) (bl : Int) (rest : List (Nat × Int)) (mlm pad : Int),
      read.cigar = (bt, bl) :: rest → bt ≠ 0 → bt ≠ 1 → bt ≠ 2 → mlm ≤ bl →
      tscTrimLeft mlm pad read =
        some { read with seq := pysliceDrop read.seq pad,
                         qual := pysliceDrop read.qual pad,
                         cigar := (0, bl - pad) :: rest, pos := read.pos + pad }) ∧
    (∀ (bt : Nat) (bl m pos mlm tl tr : Int), bt ≠ 0 → bt ≠ 1 → bt ≠ 2 → mlm ≤ m →
      get_range_good_cigars [(bt, bl), (0, m)] pos mlm tl tr =
        .error (.valueError ("CIGAR type " ++ toString bt ++ " not recognized"))) := by
  refine ⟨?_, ?_, ?_⟩
  · intro read mlm pad throw e h he
    rcases hc : read.cigar with _ | ⟨b0, rest0⟩
    · exact absurd hc h
    rcases hL : tscTrimLeft mlm pad read with _ | r1
    · rcases throw with _ | _
      · simp [trim_short_cigars, hc, hL] at he
      · simp [trim_short_cigars, hc, hL] at he
        exact Or.inl he.symm
    · have hne1 : r1.cigar ≠ [] := tscTrimLeft_cigar_ne_nil mlm pad read r1 h hL
      rcases hc1 : r1.cigar with _ | ⟨b1, rest1⟩
      · exact absurd hc1 hne1
      rcases hR : tscTrimRight mlm pad r1 with _ | r2
      · rcases throw with _ | _
        · simp [trim_short_cigars, hc, hL, hc1, hR] at he
        · simp [trim_short_cigars, hc, hL, hc1, hR] at he
          exact Or.inr he.symm
      · simp [trim_short_cigars, hc, hL, hc1, hR] at he
  · intro read bt bl rest mlm pad hc h0 h1 h2 hm
    have hneed : needsLeftTrim mlm read.cigar = true := by
      rw [hc]; simp [needsLeftTrim, h0]
    have hscan : tscScanLeft mlm pad read.cigar read.pos 0 =
        some ((0, bl - pad) :: rest, read.pos + pad, 0 + pad) := by
      rw [hc]
      simp only [tscScanLeft, if_neg h2, if_neg h1]
      rw [if_neg (by omega)]
    simp [tscTrimLeft, hneed, hscan]
  · intro bt bl m pos mlm tl tr h0 h1 h2 hm
    have hg1 : goodCigar mlm (bt, bl) = false := by simp [goodCigar, h0]
    have hg2 : goodCigar mlm (0, m) = true := by simp [goodCigar, hm]
    simp [get_range_good_cigars, firstGoodCigar, lastGoodCigar, List.findIdx_cons,
      hg1, hg2, walkBlocks, h0, h1, h2]

/-- First read for the C10 witness: untrimmable (short MATCH only). -/
def c10ReadA : AlignedRead :=
  { seq := List.replicate 5 'A', qual := List.replicate 5 70,
    cigar := [(0, 5)], pos := 0, mpos := 0, isize := 0, is_reverse := false }

/-- Second read for the C10 witness: a leading exotic block of length 30. -/
def c10ReadB : AlignedRead :=
  { seq := List.replicate 30 'A', qual := List.replicate 30 70,
    cigar := [(5, 30)], pos := 0, mpos := 0, isize := 0, is_reverse := false }

theorem C10_exotic_cigars_witness :
    (PyErr.valueError "Read too short to be trimmed from left" =
       PyErr.valueError "Read too short to be trimmed from left" ∨
     PyErr.valueError "Read too short to be trimmed from left" =
       PyErr.valueError "Read too short to be trimmed from right") ∧
    tscTrimLeft 20 3 c10ReadB =
      some { c10ReadB with seq := pysliceDrop c10ReadB.seq 3,
                           qual := pysliceDrop c10ReadB.qual 3,
                           cigar := [(0, 27)], pos := c10ReadB.pos + 3 } ∧
    get_range_good_cigars [(7, 4), (0, 30)] 11 30 3 3 =
      .error (.valueError ("CIGAR type " ++ toString (7 : Nat) ++ " not recognized")) := by
  refine ⟨?_, ?_, ?_⟩
  · exact C10_exotic_cigars.1 c10ReadA 20 3 true _ (by decide) (by decide)
  · exact C10_exotic_cigars.2.1 c10ReadB 5 30 [] 20 3 rfl (by decide) (by decide)
      (by decide) (by decide)
  · exact C10_exotic_cigars.2.2 7 4 30 11 30 3 3 (by decide) (by decide) (by decide)
      (by decide)

/-- `(win_phred >= phred_min).sum()`: the number of entries at or above the
Phred cutoff. -/
def countQ (phred_min : Int) (l : List Int) : Nat :=
  (l.filter (fun q => phred_min ≤ q)).length

/-- The LEFT EDGE sliding-window loop of trim_read_pair_low_quality
(mapping.py 842-851): starting from read_start = 0, discard (`none`) once
read_start > rlen - 50, accept the current read_start once the window
phred[read_start : read_start+10] has at least 9 bases above the cutoff,
else advance by 5 (win_size = 10, win_qual_threshold = 9, shift = 5,
read_size_min = 50 are hard-coded in the source). -/
def lqLeftScan (phred : List Int) (phred_min : Int) (rlen : Nat) (read_start : Nat) :
    Option Nat :=
  if (read_start : Int) > (rlen : Int) - 50 then none
  else if 9 ≤ countQ phred_min ((phred.drop read_start).take 10) then some read_start
  else lqLeftScan phred phred_min rlen (read_start + 5)
termination_by rlen - read_start
decreasing_by
  rename_i h1 _
  omega

/-- The RIGHT EDGE sliding-window loop (mapping.py 853-862): starting from
read_end = rlen, discard once read_end < read_start + 50, accept the
current read_end once phred[read_end-10 : read_end] has at least 9 bases
above the cutoff, else retreat by 5.  (The guard is the Python comparison
`read_end < read_start + read_size_min`; both sides are non-negative ints
there, read_end never dropping below 45, so the natural-number comparison
is exact.) -/
def lqRightScan (phred : List Int) (phred_min : Int) (read_start : Nat) (read_end : Nat) :
    Option Nat :=
  if read_end < read_start + 50 then none
  else if 9 ≤ countQ phred_min ((phred.drop (read_end - 10)).take 10) then some read_end
  else lqRightScan phred phred_min read_start (read_end - 5)
termination_by read_end
decreasing_by omega

/-- Python `cigar[-1] = v` on the working block list (which the source keeps
reversed; the embedding keeps it in original order, so the assignment
targets the head). -/
def replaceHead (v : Nat × Int) : List (Nat × Int) → List (Nat × Int)
  | [] => []
  | _ :: t => v :: t

/-- The START rewrite loop shared verbatim by
main_block_read_pair_low_quality (mapping.py 736-755) and
trim_read_pair_low_quality (mapping.py 885-906).  The first list is the
iterated copy of the cigar, the second the working list (Python reverses
it, pops from and assigns to its last element, then reverses back; the
embedding keeps it in original order, so pop(-1) is tail and cigar[-1] is
the head).  A block whose operation code is exotic matches no branch in
the source: it is skipped without popping. -/
def startWalkAux (read_start : Int) :
    List (Nat × Int) → List (Nat × Int) → Int → Int → List (Nat × Int) × Int
  | [], cig, _, ref_start => (cig, ref_start)
  | (bt, bl) :: rest, cig, read_pos, ref_start =>
    if bt = 0 ∨ bt = 1 then
      if read_start < read_pos + bl then
        (replaceHead (bt, read_pos + bl - read_start) cig,
         if bt = 0 then ref_start + (read_start - read_pos) else ref_start)
      else
        startWalkAux read_start rest cig.tail (read_pos + bl)
          (if bt = 0 then ref_start + bl else ref_start)
    else if bt = 2 then startWalkAux read_start rest cig.tail read_pos ref_start
    else startWalkAux read_start rest cig read_pos ref_start

/-- The END rewrite loop of trim_read_pair_low_quality (mapping.py
915-931): keep blocks until read_end is reached inside a MATCH/INSERTION
block (which is then truncated); DELETION blocks are appended
unconditionally; exotic codes match no branch and are skipped. -/
def endWalkLQ (read_end : Int) : List (Nat × Int) → Int → List (Nat × Int)
  | [], _ => []
  | (bt, bl) :: rest, read_pos =>
    if bt = 0 ∨ bt = 1 then
      if read_end ≤ read_pos + bl then [(bt, read_end - read_pos)]
      else (bt, bl) :: endWalkLQ read_end rest (read_pos + bl)
    else if bt = 2 then (bt, bl) :: endWalkLQ read_end rest read_pos
    else endWalkLQ read_end rest read_pos

/-- The per-read body of trim_read_pair_low_quality (mapping.py 825-939):
`none` is an early `return True` (discard the pair); otherwise the
(possibly rewritten) read together with whether this read set the
tampered flag.  The mean test `(phred[read_start:read_end] >=
phred_min).mean() < 0.9` is the exact rational comparison
10 * count < 9 * length. -/
def processReadLQ (phred_min : Int) (read : AlignedRead) : Option (AlignedRead × Bool) :=
  let phred := phredOf read
  if phred.all (fun q => phred_min ≤ q) then some (read, false)
  else
    match lqLeftScan phred phred_min read.seq.length 0 with
    | none => none
    | some read_start =>
      match lqRightScan phred phred_min read_start read.seq.length with
      | none => none
      | some read_end =>
        let span := (phred.drop read_start).take (read_end - read_start)
        if 10 * (countQ phred_min span : Int) < 9 * (span.length : Int) then none
        else if read_start = 0 ∧ read_end = read.seq.length then some (read, false)
        else
          let startRes :=
            if read_start = 0 then (read.cigar, read.pos)
            else startWalkAux (read_start : Int) read.cigar read.cigar 0 read.pos
          let read_end' := read_end - read_start
          let cigar2 :=
            if (read_end' : Int) + (read_start : Int) < (read.seq.length : Int) then
              endWalkLQ (read_end' : Int) startRes.1 0
            else startRes.1
          some ({ read with pos := startRes.2,
                            seq := (read.seq.drop read_start).take read_end',
                            qual := (read.qual.drop read_start).take read_end',
                            cigar := cigar2 }, true)

/-- trim_read_pair_low_quality (mapping.py 809-967): process both reads in
order; an early discard returns True with the pair in its current state;
if a read was tampered with, rewrite the mate positions, then discard when
the recomputed insert size is non-positive, otherwise write the insert
sizes. -/
def trim_read_pair_low_quality (phred_min : Int) (read_pair : ReadPair) : Bool × ReadPair :=
  match processReadLQ phred_min read_pair.1 with
  | none => (true, read_pair)
  | some (r0, t0) =>
    match processReadLQ phred_min read_pair.2 with
    | none => (true, (r0, read_pair.2))
    | some (r1, t1) =>
      if t0 || t1 then
        let i_fwd := r0.is_reverse
        let fwd := if i_fwd then r1 else r0
        let rev := if i_fwd then r0 else r1
        let fwd' := { fwd with mpos := rev.pos }
        let rev' := { rev with mpos := fwd.pos }
        let isize := rev.pos + sumMD rev.cigar - fwd.pos
        if isize ≤ 0 then (true, if i_fwd then (rev', fwd') else (fwd', rev'))
        else (false,
          if i_fwd then ({ rev' with isize := -isize }, { fwd' with isize := isize })
          else ({ fwd' with isize := isize }, { rev' with isize := -isize }))
      else (false, (r0, r1))

/-- `np.diff(ind).nonzero()[0] + 1` (mapping.py 708): the indices at which
the 0/1 indicator changes value, shifted by one. -/
def switchPoints (ind : List Bool) : List Nat :=
  ((List.range (ind.length - 1)).filter
    (fun i => !(ind.getD (i + 1) false == ind.getD i false))).map (fun i => i + 1)

/-- Python extended slice `l[::2]`. -/
def everyOther : List Nat → List Nat
  | [] => []
  | [a] => [a]
  | a :: _ :: rest => a :: everyOther rest

/-- `np.argmax`: the index of the first occurrence of the maximum. -/
def argmaxList : List Int → Nat
  | [] => 0
  | [_] => 0
  | a :: b :: rest =>
    let j := argmaxList (b :: rest)
    if (b :: rest).getD j 0 ≤ a then 0 else j + 1

/-- The END rewrite loop of main_block_read_pair_low_quality (mapping.py
763-777): like the trim_read_pair_low_quality version, except that a
DELETION reaching read_end breaks (is dropped) instead of being kept. -/
def endWalkMB (read_end : Int) : List (Nat × Int) → Int → List (Nat × Int)
  | [], _ => []
  | (bt, bl) :: rest, read_pos =>
    if bt = 0 ∨ bt = 1 then
      if read_end ≤ read_pos + bl then [(bt, read_end - read_pos)]
      else (bt, bl) :: endWalkMB read_end rest (read_pos + bl)
    else if bt = 2 then
      if read_end ≤ read_pos + bl then []
      else (bt, bl) :: endWalkMB read_end rest read_pos
    else endWalkMB read_end rest read_pos

/-- The per-read body of main_block_read_pair_low_quality (mapping.py
690-787): `none` is an early `return True`; otherwise the (possibly
rewritten) read and whether it was tampered with.  The alternating
below/above-threshold runs are starts0 = 0 :: switch and ends0 = switch ++
[len], restricted to the above-threshold runs by the parity slice
`[not ind[0] :: 2]`. -/
def processReadMB (phred_min read_len_min : Int) (read : AlignedRead) :
    Option (AlignedRead × Bool) :=
  let phred := phredOf read
  let ind := phred.map (fun q => decide (phred_min ≤ q))
  if !(ind.any id) then none
  else if ind.all id then some (read, false)
  else
    let switch := switchPoints ind
    let starts0 := 0 :: switch
    let ends0 := switch ++ [ind.length]
    let off := if ind.headD false then 0 else 1
    let starts := everyOther (starts0.drop off)
    let ends := everyOther (ends0.drop off)
    let blocks_len := List.zipWith (fun e s => (e : Int) - (s : Int)) ends starts
    let k := argmaxList blocks_len
    if blocks_len.getD k 0 < read_len_min then none
    else
      let read_start := starts.getD k 0
      let startRes :=
        if read_start = 0 then (read.cigar, read.pos)
        else startWalkAux (read_start : Int) read.cigar read.cigar 0 read.pos
      let read_end' := ends.getD k 0 - read_start
      let cigar2 :=
        if (read_end' : Int) + (read_start : Int) < (read.seq.length : Int) then
          endWalkMB (read_end' : Int) startRes.1 0
        else startRes.1
      some ({ read with pos := startRes.2,
                        seq := (read.seq.drop read_start).take read_end',
                        qual := (read.qual.drop read_start).take read_end',
                        cigar := cigar2 }, true)

/-- main_block_read_pair_low_quality (mapping.py 678-806): process both
reads; an early discard returns True with the pair in its current state;
if a read was tampered with, rewrite the mate positions and insert sizes
(with no insert-size sign check, unlike trim_read_pair_low_quality). -/
def main_block_read_pair_low_quality (phred_min read_len_min : Int)
    (read_pair : ReadPair) : Bool × ReadPair :=
  match processReadMB phred_min read_len_min read_pair.1 with
  | none => (true, read_pair)
  | some (r0, t0) =>
    match processReadMB phred_min read_len_min read_pair.2 with
    | none => (true, (r0, read_pair.2))
    | some (r1, t1) =>
      if t0 || t1 then
        let i_fwd := r0.is_reverse
        let fwd := if i_fwd then r1 else r0
        let rev := if i_fwd then r0 else r1
        let fwd' := { fwd with mpos := rev.pos }
        let rev' := { rev with mpos := fwd.pos }
        let isize := rev.pos + sumMD rev.cigar - fwd.pos
        (false,
          if i_fwd then ({ rev' with isize := -isize }, { fwd' with isize := isize })
          else ({ fwd' with isize := isize }, { rev' with isize := -isize }))
      else (false, (r0, r1))

theorem countQ_append (pm : Int) (a b : List Int) :
    countQ pm (a ++ b) = countQ pm a + countQ pm b := by
  simp [countQ, List.filter_append]

theorem countQ_cons (pm a : Int) (l : List Int) :
    countQ pm (a :: l) = (if pm ≤ a then 1 else 0) + countQ pm l := by
  by_cases h : pm ≤ a
  · simp [countQ, List.filter_cons, h]
    omega
  · simp [countQ, List.filter_cons, h]

theorem countQ_replicate (pm v : Int) (k : Nat) :
    countQ pm (List.replicate k v) = if pm ≤ v then k else 0 := by
  induction k with
  | zero => simp [countQ]
  | succ n ih =>
    rw [List.replicate_succ, countQ_cons, ih]
    by_cases h : pm ≤ v
    · simp [h]
      omega
    · simp [h]

/-- The Phred scores of a read whose quality is 5 bases at code 43
(Phred 10) followed by m bases at code 63 (Phred 30). -/
theorem phredOf_shaped (r : AlignedRead) (m : Nat)
    (hq : r.qual = List.replicate 5 43 ++ List.replicate m 63) :
    phredOf r = List.replicate 5 10 ++ List.replicate m 30 := by
  rw [phredOf, hq]
  simp only [List.map_append, List.map_replicate]
  norm_num

/-- On the shaped Phred list the left scan advances once (the first window
has only 5 good bases) and accepts read_start = 5. -/
theorem lqLeftScan_shaped (m : Nat) (hm : 55 ≤ m) :
    lqLeftScan (List.replicate 5 10 ++ List.replicate m 30) 20 (5 + m) 0 = some 5 := by
  have w0 : countQ 20 (((List.replicate 5 (10 : Int) ++ List.replicate m 30).drop 0).take 10)
      = 5 := by
    rw [List.drop_zero, List.take_append_eq_append_take]
    simp [List.take_replicate, countQ_append, countQ_replicate, countQ_cons]
    omega
  have w5 : countQ 20 (((List.replicate 5 (10 : Int) ++ List.replicate m 30).drop 5).take 10)
      = 10 := by
    rw [List.drop_append_eq_append_drop]
    simp [List.drop_replicate, List.take_replicate, countQ_replicate, countQ_cons]
    omega
  rw [lqLeftScan, if_neg (by push_cast; omega), if_neg (by rw [w0]; omega)]
  rw [lqLeftScan, if_neg (by push_cast; omega), if_pos (by rw [w5]; omega)]

/-- On the shaped Phred list the right scan accepts read_end = rlen
immediately. -/
theorem lqRightScan_shaped (m : Nat) (hm : 55 ≤ m) :
    lqRightScan (List.replicate 5 10 ++ List.replicate m 30) 20 5 (5 + m) = some (5 + m) := by
  have h1 : 5 + m - 10 = m - 5 := by omega
  have w : countQ 20
      (((List.replicate 5 (10 : Int) ++ List.replicate m 30).drop (5 + m - 10)).take 10)
      = 10 := by
    rw [h1, List.drop_append_eq_append_drop, List.length_replicate]
    rw [List.drop_eq_nil_of_le (by rw [List.length_replicate]; omega), List.nil_append]
    rw [List.drop_replicate, List.take_replicate, countQ_replicate]
    simp
    omega
  rw [lqRightScan, if_neg (by omega), if_pos (by rw [w]; omega)]

/-- On a read whose quality is 5 low bases (Phred 10) followed by m >= 55
high bases (Phred 30), with phred_min = 20 the trimmer trims exactly the
first 5 bases, nothing from the right, and reports tampering; the cigar
and position are rewritten by the start walk. -/
theorem processReadLQ_shaped (r : AlignedRead) (m : Nat)
    (hq : r.qual = List.replicate 5 43 ++ List.replicate m 63)
    (hm : 55 ≤ m) (hlen : r.seq.length = r.qual.length) :
    processReadLQ 20 r =
      some ({ r with
                pos := (startWalkAux 5 r.cigar r.cigar 0 r.pos).2,
                seq := r.seq.drop 5,
                qual := r.qual.drop 5,
                cigar := (startWalkAux 5 r.cigar r.cigar 0 r.pos).1 }, true) := by
  have hph : phredOf r = List.replicate 5 10 ++ List.replicate m 30 := phredOf_shaped r m hq
  have hqlen : r.qual.length = 5 + m := by
    rw [hq]
    simp only [List.length_append, List.length_replicate]
  have hrlen : r.seq.length = 5 + m := by rw [hlen, hqlen]
  have hall : ((List.replicate 5 (10 : Int) ++ List.replicate m 30).all
      (fun q => decide ((20 : Int) ≤ q))) = false := by
    apply List.all_eq_false.mpr
    exact ⟨10, List.mem_append_left _ (List.mem_replicate.mpr ⟨by omega, rfl⟩), by decide⟩
  have h55 : 5 + m - 5 = m := by omega
  have hspan : ((List.replicate 5 (10 : Int) ++ List.replicate m 30).drop 5).take m
      = List.replicate m 30 := by
    rw [List.drop_append_eq_append_drop, List.length_replicate]
    simp [List.drop_replicate, List.take_replicate]
  have htake_seq : (r.seq.drop 5).take m = r.seq.drop 5 := by
    apply List.take_of_length_le
    simp [hrlen]
  have htake_qual : (r.qual.drop 5).take m = r.qual.drop 5 := by
    apply List.take_of_length_le
    simp [hqlen]
  simp only [processReadLQ, hall, Bool.false_eq_true, if_false, hrlen, hph,
    lqLeftScan_shaped m hm, lqRightScan_shaped m hm, h55, hspan, htake_seq, htake_qual,
    List.length_replicate, countQ_replicate, hall]
  rw [if_pos (show (20 : Int) ≤ 30 by norm_num)]
  rw [if_neg (show ¬(10 * (m : Int) < 9 * (m : Int)) by omega)]
  rw [if_neg (show ¬((5 : Nat) = 0 ∧ True) by simp)]
  simp only [if_neg (show ¬(5 : Nat) = 0 by omega)]
  rw [if_neg (show ¬((m : Int) + ((5 : Nat) : Int) < ((5 + m : Nat) : Int)) by push_cast; omega)]
  norm_num

/-- A 60-base read whose quality is uniformly Phred 10 fails the left scan
of trim_read_pair_low_quality: the pair is discarded. -/
theorem processReadLQ_allLow (r : AlignedRead) (hq : r.qual = List.replicate 60 43)
    (hlen : r.seq.length = 60) : processReadLQ 20 r = none := by
  have hph : phredOf r = List.replicate 60 (10 : Int) := by
    rw [phredOf, hq, List.map_replicate]
    norm_num
  have hall : (phredOf r).all (fun q => (20 : Int) ≤ q) = false := by
    rw [hph]
    decide
  have hL : lqLeftScan (List.replicate 60 (10 : Int)) 20 60 0 = none := by
    rw [lqLeftScan, if_neg (by norm_num), if_neg (by decide)]
    rw [lqLeftScan, if_neg (by norm_num), if_neg (by decide)]
    rw [lqLeftScan, if_neg (by norm_num), if_neg (by decide)]
    rw [lqLeftScan, if_pos (by norm_num)]
  simp only [processReadLQ, hall, Bool.false_eq_true, if_false, hph, hlen, hL]
  rw [if_neg (by decide)]

/-- First read of the C3 counterexample pair: 5 low-quality bases then 55
high-quality ones, so the trimmer rewrites it. -/
def c3ReadA : AlignedRead :=
  { seq := List.replicate 60 'A',
    qual := List.replicate 5 43 ++ List.replicate 55 63,
    cigar := [(0, 60)], pos := 0, mpos := 0, isize := 60, is_reverse := false }

/-- Second read of the C3 counterexample pair: uniformly low quality, so the
scan discards the pair after the first read has already been modified. -/
def c3ReadB : AlignedRead :=
  { seq := List.replicate 60 'A', qual := List.replicate 60 43,
    cigar := [(0, 60)], pos := 0, mpos := 0, isize := -60, is_reverse := true }

/-- C3 counterexample: trim_read_pair_low_quality signals discard on this
pair (returns true) yet the first read is not left unchanged: it was
trimmed before the second read triggered the discard. -/
theorem C3_cex :
    (trim_read_pair_low_quality 20 (c3ReadA, c3ReadB)).1 = true ∧
    (trim_read_pair_low_quality 20 (c3ReadA, c3ReadB)).2.1 ≠ c3ReadA := by
  have hA := processReadLQ_shaped c3ReadA 55 rfl (by omega) (by decide)
  have hB : processReadLQ 20 c3ReadB = none := processReadLQ_allLow c3ReadB rfl (by decide)
  constructor
  · simp only [trim_read_pair_low_quality, hA, hB]
  · simp only [trim_read_pair_low_quality, hA, hB]
    decide

/-- C3 (amended): discard is atomic only when it is signalled while
processing the first read of the pair: in that case both quality policies
(trim_read_pair_low_quality and main_block_read_pair_low_quality) return
the discard signal with both reads unchanged in every field.  (A discard
signalled on the second read, or at the post-trim insert-size check, can
leave the first read already modified.) -/
theorem C3_discard_on_first_read_atomic :
    (∀ (read_pair : ReadPair) (phred_min : Int),
      processReadLQ phred_min read_pair.1 = none →
      trim_read_pair_low_quality phred_min read_pair = (true, read_pair)) ∧
    (∀ (read_pair : ReadPair) (phred_min read_len_min : Int),
      processReadMB phred_min read_len_min read_pair.1 = none →
      main_block_read_pair_low_quality phred_min read_len_min read_pair =
        (true, read_pair)) := by
  constructor
  · intro p pm h
    simp [trim_read_pair_low_quality, h]
  · intro p pm rlm h
    simp [main_block_read_pair_low_quality, h]

/-- First read of the C3 witness pair: uniformly low quality, so both
policies discard while processing it. -/
def c3WitA : AlignedRead :=
  { seq := List.replicate 60 'A', qual := List.replicate 60 43,
    cigar := [(0, 60)], pos := 0, mpos := 0, isize := 60, is_reverse := false }

/-- Second read of the C3 witness pair. -/
def c3WitB : AlignedRead :=
  { seq := List.replicate 60 'A', qual := List.replicate 60 63,
    cigar := [(0, 60)], pos := 0, mpos := 0, isize := -60, is_reverse := true }

theorem C3_discard_on_first_read_atomic_witness :
    trim_read_pair_low_quality 20 (c3WitA, c3WitB) = (true, (c3WitA, c3WitB)) ∧
    main_block_read_pair_low_quality 20 50 (c3WitA, c3WitB) = (true, (c3WitA, c3WitB)) := by
  refine ⟨C3_discard_on_first_read_atomic.1 (c3WitA, c3WitB) 20
      (processReadLQ_allLow c3WitA rfl (by decide)),
    C3_discard_on_first_read_atomic.2 (c3WitA, c3WitB) 20 50 ?_⟩
  decide

/-- The per-read body of trim_read_pair_low_quality never touches the
insert-size field of the read it rewrites. -/
theorem processReadLQ_preserves_isize (pm : Int) (r r' : AlignedRead) (t : Bool)
    (h : processReadLQ pm r = some (r', t)) : r'.isize = r.isize := by
  simp only [processReadLQ] at h
  split at h
  · simp only [Option.some.injEq, Prod.mk.injEq] at h
    rw [← h.1]
  · split at h
    · exact Option.noConfusion h
    · split at h
      · exact Option.noConfusion h
      · split at h
        · exact Option.noConfusion h
        · split at h
          · simp only [Option.some.injEq, Prod.mk.injEq] at h
            rw [← h.1]
          · simp only [Option.some.injEq, Prod.mk.injEq] at h
            rw [← h.1]

/-- When both reads were processed without an early discard and at least
one was tampered with, and the recomputed insert size is positive,
trim_read_pair_low_quality returns False and the reconciled pair. -/
theorem trimLQ_tampered_pos (read_pair : ReadPair) (phred_min : Int)
    (r0 r1 : AlignedRead) (t0 t1 : Bool)
    (h0 : processReadLQ phred_min read_pair.1 = some (r0, t0))
    (h1 : processReadLQ phred_min read_pair.2 = some (r1, t1))
    (ht : (t0 || t1) = true)
    (hpos : 0 < (if r0.is_reverse then r0 else r1).pos
        + sumMD (if r0.is_reverse then r0 else r1).cigar
        - (if r0.is_reverse then r1 else r0).pos) :
    trim_read_pair_low_quality phred_min read_pair = (false,
      if r0.is_reverse then
        ({ r0 with mpos := r1.pos, isize := -(r0.pos + sumMD r0.cigar - r1.pos) },
         { r1 with mpos := r0.pos, isize := r0.pos + sumMD r0.cigar - r1.pos })
      else
        ({ r0 with mpos := r1.pos, isize := r1.pos + sumMD r1.cigar - r0.pos },
         { r1 with mpos := r0.pos, isize := -(r1.pos + sumMD r1.cigar - r0.pos) })) := by
  by_cases hrev : r0.is_reverse
  · simp only [hrev, if_true] at hpos ⊢
    simp only [trim_read_pair_low_quality, h0, h1, ht, hrev, if_true]
    rw [if_neg (by omega)]
  · simp only [hrev, if_false, Bool.false_eq_true] at hpos ⊢
    simp only [trim_read_pair_low_quality, h0, h1, ht, hrev, Bool.false_eq_true, if_false]
    rw [if_pos trivial, if_neg (by omega)]

/-- C6: whenever trim_read_pair_low_quality has modified at least one read
(some tampered flag is set) and the recomputed insert size
(rev.pos + rev reference span - fwd.pos) is non-positive, the function
signals discard by returning true and does not write the non-positive
insert size: both insert-size fields keep their entry values. -/
theorem C6_trim_low_quality_isize_discard (read_pair : ReadPair) (phred_min : Int)
    (r0 r1 : AlignedRead) (t0 t1 : Bool)
    (h0 : processReadLQ phred_min read_pair.1 = some (r0, t0))
    (h1 : processReadLQ phred_min read_pair.2 = some (r1, t1))
    (ht : (t0 || t1) = true)
    (hsz : (if r0.is_reverse then r0 else r1).pos
        + sumMD (if r0.is_reverse then r0 else r1).cigar
        - (if r0.is_reverse then r1 else r0).pos ≤ 0) :
    (trim_read_pair_low_quality phred_min read_pair).1 = true ∧
    (trim_read_pair_low_quality phred_min read_pair).2.1.isize = read_pair.1.isize ∧
    (trim_read_pair_low_quality phred_min read_pair).2.2.isize = read_pair.2.isize := by
  have hp0 := processReadLQ_preserves_isize phred_min read_pair.1 r0 t0 h0
  have hp1 := processReadLQ_preserves_isize phred_min read_pair.2 r1 t1 h1
  by_cases hrev : r0.is_reverse
  · simp only [hrev, if_true] at hsz
    simp only [trim_read_pair_low_quality, h0, h1, ht, hrev, if_true]
    rw [if_pos hsz]
    exact ⟨rfl, hp0, hp1⟩
  · simp only [hrev, if_false, Bool.false_eq_true] at hsz
    simp only [trim_read_pair_low_quality, h0, h1, ht, hrev, Bool.false_eq_true, if_false]
    rw [if_pos trivial, if_pos hsz]
    exact ⟨rfl, hp0, hp1⟩

/-- Forward read for the C6 witness: perfect quality, mapped at 100. -/
def c6Fwd : AlignedRead :=
  { seq := List.replicate 60 'A', qual := List.replicate 60 63,
    cigar := [(0, 60)], pos := 100, mpos := 0, isize := 77, is_reverse := false }

/-- Reverse read for the C6 witness: 5 low-quality bases then 55 high ones,
mapped at 0, so the recomputed insert size 5 + 55 - 100 is negative. -/
def c6Rev : AlignedRead :=
  { seq := List.replicate 60 'A',
    qual := List.replicate 5 43 ++ List.replicate 55 63,
    cigar := [(0, 60)], pos := 0, mpos := 0, isize := -77, is_reverse := true }

theorem C6_trim_low_quality_isize_discard_witness :
    (trim_read_pair_low_quality 20 (c6Fwd, c6Rev)).1 = true ∧
    (trim_read_pair_low_quality 20 (c6Fwd, c6Rev)).2.1.isize = c6Fwd.isize ∧
    (trim_read_pair_low_quality 20 (c6Fwd, c6Rev)).2.2.isize = c6Rev.isize := by
  have h0 : processReadLQ 20 c6Fwd = some (c6Fwd, false) := by
    simp only [processReadLQ]
    rw [if_pos (by decide)]
  have h1 := processReadLQ_shaped c6Rev 55 rfl (by omega) (by decide)
  exact C6_trim_low_quality_isize_discard (c6Fwd, c6Rev) 20 c6Fwd _ false true
    h0 h1 rfl (by decide)

/-- First read of the C7 counterexample pair: shaped quality, mapped far to
the right so that the post-trim insert size collapses. -/
def c7ReadA : AlignedRead :=
  { seq := List.replicate 60 'A',
    qual := List.replicate 5 43 ++ List.replicate 55 63,
    cigar := [(0, 60)], pos := 1000, mpos := 0, isize := 0, is_reverse := false }

/-- Second read of the C7 counterexample pair: shaped quality, mapped at 0. -/
def c7ReadB : AlignedRead :=
  { seq := List.replicate 60 'A',
    qual := List.replicate 5 43 ++ List.replicate 55 63,
    cigar := [(0, 60)], pos := 0, mpos := 0, isize := 0, is_reverse := true }

/-- C7 counterexample: both reads have the scenario quality shape (first 5
Phred 10 below the cutoff 20, the rest Phred 30, length 60), yet
trim_read_pair_low_quality discards the pair (returns true), because the
recomputed post-trim insert size is negative - refuting "... and not
discarding the pair". -/
theorem C7_cex :
    (c7ReadA.qual = List.replicate 5 43 ++ List.replicate 55 63 ∧
     c7ReadB.qual = List.replicate 5 43 ++ List.replicate 55 63 ∧
     60 ≤ c7ReadA.seq.length ∧ 60 ≤ c7ReadB.seq.length) ∧
    (trim_read_pair_low_quality 20 (c7ReadA, c7ReadB)).1 = true := by
  refine ⟨⟨rfl, rfl, by decide, by decide⟩, ?_⟩
  have hA := processReadLQ_shaped c7ReadA 55 rfl (by omega) (by decide)
  have hB := processReadLQ_shaped c7ReadB 55 rfl (by omega) (by decide)
  simp only [trim_read_pair_low_quality, hA, hB]
  decide

/-- C7 (amended): for every pair whose reads both have the scenario quality
shape (Phred 10 on the first five bases, Phred 30 on at least 55 more,
with phred_min = 20), provided the recomputed post-trim insert size is
positive, trim_read_pair_low_quality trims exactly the first 5 bases of
each read (sequence and quality), trims nothing from the right edge, and
does not discard the pair. -/
theorem C7_scenario_c (read_pair : ReadPair) (m0 m1 : Nat)
    (hq0 : read_pair.1.qual = List.replicate 5 43 ++ List.replicate m0 63)
    (hq1 : read_pair.2.qual = List.replicate 5 43 ++ List.replicate m1 63)
    (hm0 : 55 ≤ m0) (hm1 : 55 ≤ m1)
    (hlen0 : read_pair.1.seq.length = read_pair.1.qual.length)
    (hlen1 : read_pair.2.seq.length = read_pair.2.qual.length)
    (r0 r1 : AlignedRead) (t0 t1 : Bool)
    (h0 : processReadLQ 20 read_pair.1 = some (r0, t0))
    (h1 : processReadLQ 20 read_pair.2 = some (r1, t1))
    (hpos : 0 < (if r0.is_reverse then r0 else r1).pos
        + sumMD (if r0.is_reverse then r0 else r1).cigar
        - (if r0.is_reverse then r1 else r0).pos) :
    (trim_read_pair_low_quality 20 read_pair).1 = false ∧
    (trim_read_pair_low_quality 20 read_pair).2.1.seq = read_pair.1.seq.drop 5 ∧
    (trim_read_pair_low_quality 20 read_pair).2.1.qual = read_pair.1.qual.drop 5 ∧
    (trim_read_pair_low_quality 20 read_pair).2.2.seq = read_pair.2.seq.drop 5 ∧
    (trim_read_pair_low_quality 20 read_pair).2.2.qual = read_pair.2.qual.drop 5 := by
  have hA := processReadLQ_shaped read_pair.1 m0 hq0 hm0 hlen0
  have hB := processReadLQ_shaped read_pair.2 m1 hq1 hm1 hlen1
  rw [h0] at hA
  rw [h1] at hB
  simp only [Option.some.injEq, Prod.mk.injEq] at hA hB
  have ht : (t0 || t1) = true := by simp [hA.2, hB.2]
  have hfix := trimLQ_tampered_pos read_pair 20 r0 r1 t0 t1 h0 h1 ht hpos
  rw [hfix]
  have hs0 : r0.seq = read_pair.1.seq.drop 5 := by rw [hA.1]
  have hs1 : r1.seq = read_pair.2.seq.drop 5 := by rw [hB.1]
  have hu0 : r0.qual = read_pair.1.qual.drop 5 := by rw [hA.1]
  have hu1 : r1.qual = read_pair.2.qual.drop 5 := by rw [hB.1]
  by_cases hrev : r0.is_reverse <;>
    simp [hrev, hs0, hs1, hu0, hu1]

/-- First read of the C7 witness pair. -/
def c7WitA : AlignedRead :=
  { seq := List.replicate 60 'A',
    qual := List.replicate 5 43 ++ List.replicate 55 63,
    cigar := [(0, 60)], pos := 0, mpos := 0, isize := 0, is_reverse := false }

/-- Second read of the C7 witness pair. -/
def c7WitB : AlignedRead :=
  { seq := List.replicate 60 'A',
    qual := List.replicate 5 43 ++ List.replicate 55 63,
    cigar := [(0, 60)], pos := 0, mpos := 0, isize := 0, is_reverse := true }

theorem C7_scenario_c_witness :
    (trim_read_pair_low_quality 20 (c7WitA, c7WitB)).1 = false ∧
    (trim_read_pair_low_quality 20 (c7WitA, c7WitB)).2.1.seq = c7WitA.seq.drop 5 ∧
    (trim_read_pair_low_quality 20 (c7WitA, c7WitB)).2.1.qual = c7WitA.qual.drop 5 ∧
    (trim_read_pair_low_quality 20 (c7WitA, c7WitB)).2.2.seq = c7WitB.seq.drop 5 ∧
    (trim_read_pair_low_quality 20 (c7WitA, c7WitB)).2.2.qual = c7WitB.qual.drop 5 := by
  have hA := processReadLQ_shaped c7WitA 55 rfl (by omega) (by decide)
  have hB := processReadLQ_shaped c7WitB 55 rfl (by omega) (by decide)
  exact C7_scenario_c (c7WitA, c7WitB) 55 55 rfl rfl (by omega) (by omega) (by decide)
    (by decide) _ _ true true hA hB (by decide)

/-- The FWD loop of trim_read_pair_crossoverhangs (mapping.py 986-1009):
walk the forward read's cigar, clipping at end_rev - trim (a MATCH
reaching the boundary is truncated, a DELETION reaching it is dropped);
returns the new cigar and the consumed read length, or ValueError on an
unrecognized block type. -/
def fwdWalk (trim end_rev : Int) :
    List (Nat × Int) → Int → Except PyErr (List (Nat × Int) × Int)
  | [], _ => .ok ([], 0)
  | (bt, bl) :: rest, ref_pos =>
    if bt = 0 then
      if end_rev - trim ≤ ref_pos + bl then
        .ok ([(0, end_rev - ref_pos - trim)], end_rev - ref_pos - trim)
      else
        match fwdWalk trim end_rev rest (ref_pos + bl) with
        | .ok (c, rp) => .ok ((0, bl) :: c, bl + rp)
        | .error e => .error e
    else if bt = 1 then
      match fwdWalk trim end_rev rest ref_pos with
      | .ok (c, rp) => .ok ((1, bl) :: c, bl + rp)
      | .error e => .error e
    else if bt = 2 then
      if end_rev - trim ≤ ref_pos + bl then .ok ([], 0)
      else
        match fwdWalk trim end_rev rest (ref_pos + bl) with
        | .ok (c, rp) => .ok ((2, bl) :: c, rp)
        | .error e => .error e
    else .error (.valueError ("CIGAR type " ++ toString bt ++ " not recognized"))

/-- The REV loop of trim_read_pair_crossoverhangs (mapping.py 1023-1047),
walking the reversed cigar from ref_pos = end_rev down to the boundary
start_fwd + trim; returns the kept blocks (in walk order, i.e. reversed),
the final reference position (the new read start) and the consumed read
length. -/
def revWalk (trim start_fwd : Int) :
    List (Nat × Int) → Int → Except PyErr (List (Nat × Int) × Int × Int)
  | [], ref_pos => .ok ([], ref_pos, 0)
  | (bt, bl) :: rest, ref_pos =>
    if bt = 0 then
      if ref_pos - bl ≤ start_fwd + trim then
        .ok ([(0, ref_pos - (start_fwd + trim))], start_fwd + trim,
             ref_pos - (start_fwd + trim))
      else
        match revWalk trim start_fwd rest (ref_pos - bl) with
        | .ok (c, rf, rd) => .ok ((0, bl) :: c, rf, bl + rd)
        | .error e => .error e
    else if bt = 1 then
      match revWalk trim start_fwd rest ref_pos with
      | .ok (c, rf, rd) => .ok ((1, bl) :: c, rf, bl + rd)
      | .error e => .error e
    else if bt = 2 then
      if ref_pos - bl ≤ start_fwd + trim then .ok ([], ref_pos, 0)
      else
        match revWalk trim start_fwd rest (ref_pos - bl) with
        | .ok (c, rf, rd) => .ok ((2, bl) :: c, rf, rd)
        | .error e => .error e
    else .error (.valueError ("CIGAR type " ++ toString bt ++ " not recognized"))

/-- trim_read_pair_crossoverhangs (mapping.py 970-1064) on the (fwd, rev)
reads of the pair; the Except value carries the final pair of the
no-exception outcomes (an exception leaves Python objects partially
mutated, which no claim depends on). -/
def trimCrossCore (trim : Int) (read_fwd read_rev : AlignedRead) :
    Except PyErr (AlignedRead × AlignedRead) :=
  let end_rev := read_fwd.pos + read_fwd.isize
  match fwdWalk trim end_rev read_fwd.cigar read_fwd.pos with
  | .error e => .error e
  | .ok (cigarF, read_posF) =>
    let fwd1 := { read_fwd with seq := pysliceTake read_fwd.seq read_posF,
                                qual := pysliceTake read_fwd.qual read_posF,
                                cigar := cigarF }
    let start_fwd := fwd1.pos
    match revWalk trim start_fwd read_rev.cigar.reverse end_rev with
    | .error e => .error e
    | .ok (cigarR, ref_posR, read_decR) =>
      let read_posR := (read_rev.seq.length : Int) - read_decR
      let rev1 := { read_rev with pos := ref_posR,
                                  seq := pysliceDrop read_rev.seq read_posR,
                                  qual := pysliceDrop read_rev.qual read_posR,
                                  cigar := cigarR.reverse }
      let fwd2 := { fwd1 with mpos := rev1.pos }
      let rev2 := { rev1 with mpos := fwd1.pos }
      let isize := rev2.pos + sumMD rev2.cigar - fwd2.pos
      .ok ({ fwd2 with isize := isize }, { rev2 with isize := -isize })

/-- trim_read_pair_crossoverhangs with the i_fwd slot selection
(i_fwd = read_pair[0].is_reverse, used as an index). -/
def trim_read_pair_crossoverhangs (trim : Int) (read_pair : ReadPair) :
    Except PyErr ReadPair :=
  if read_pair.1.is_reverse then
    match trimCrossCore trim read_pair.2 read_pair.1 with
    | .error e => .error e
    | .ok (f, r) => .ok (r, f)
  else
    match trimCrossCore trim read_pair.1 read_pair.2 with
    | .error e => .error e
    | .ok (f, r) => .ok (f, r)

theorem sumMD_append (a b : List (Nat × Int)) : sumMD (a ++ b) = sumMD a + sumMD b := by
  induction a with
  | nil => simp [sumMD]
  | cons x xs ih =>
    obtain ⟨bt, bl⟩ := x
    simp [sumMD, ih]
    ring

theorem sumMD_reverse (l : List (Nat × Int)) : sumMD l.reverse = sumMD l := by
  induction l with
  | nil => rfl
  | cons x xs ih =>
    obtain ⟨bt, bl⟩ := x
    simp [List.reverse_cons, sumMD_append, sumMD, ih]
    ring

theorem sumMI_append (a b : List (Nat × Int)) : sumMI (a ++ b) = sumMI a + sumMI b := by
  induction a with
  | nil => simp [sumMI]
  | cons x xs ih =>
    obtain ⟨bt, bl⟩ := x
    simp [sumMI, ih]
    ring

theorem sumMI_reverse (l : List (Nat × Int)) : sumMI l.reverse = sumMI l := by
  induction l with
  | nil => rfl
  | cons x xs ih =>
    obtain ⟨bt, bl⟩ := x
    simp [List.reverse_cons, sumMI_append, sumMI, ih]
    ring

theorem sumMI_nonneg (l : List (Nat × Int)) (h : ∀ b ∈ l, 0 ≤ b.2) : 0 ≤ sumMI l := by
  induction l with
  | nil => simp [sumMI]
  | cons x xs ih =>
    obtain ⟨bt, bl⟩ := x
    have h1 : (0 : Int) ≤ bl := h (bt, bl) (List.mem_cons_self _ _)
    have h2 := ih (fun b hb => h b (List.mem_cons_of_mem _ hb))
    simp only [sumMI]
    split_ifs <;> omega

/-- The forward cross-overhang walk is idempotent: re-walking its output
from the same start reproduces it exactly. -/
theorem fwdWalk_idem (trim end_rev : Int) (c : List (Nat × Int)) (ref : Int)
    (c' : List (Nat × Int)) (rp : Int)
    (h : fwdWalk trim end_rev c ref = .ok (c', rp)) :
    fwdWalk trim end_rev c' ref = .ok (c', rp) := by
  induction c generalizing ref c' rp with
  | nil =>
    simp only [fwdWalk, Except.ok.injEq, Prod.mk.injEq] at h
    obtain ⟨h1, h2⟩ := h
    subst h1
    subst h2
    rfl
  | cons b rest ih =>
    obtain ⟨bt, bl⟩ := b
    by_cases hb0 : bt = 0
    · subst hb0
      by_cases hcut : end_rev - trim ≤ ref + bl
      · simp only [fwdWalk] at h
        rw [if_pos trivial, if_pos hcut] at h
        simp only [Except.ok.injEq, Prod.mk.injEq] at h
        obtain ⟨h1, h2⟩ := h
        subst h1
        subst h2
        simp only [fwdWalk]
        rw [if_pos trivial, if_pos (by omega : end_rev - trim ≤ ref + (end_rev - ref - trim))]
      · simp only [fwdWalk] at h
        rw [if_pos trivial, if_neg hcut] at h
        rcases hrec : fwdWalk trim end_rev rest (ref + bl) with e | ⟨crest, rprest⟩
        · rw [hrec] at h
          exact Except.noConfusion h
        · rw [hrec] at h
          simp only [Except.ok.injEq, Prod.mk.injEq] at h
          obtain ⟨h1, h2⟩ := h
          subst h1
          subst h2
          simp only [fwdWalk]
          rw [if_pos trivial, if_neg hcut, ih (ref + bl) crest rprest hrec]
    · by_cases hb1 : bt = 1
      · subst hb1
        simp only [fwdWalk] at h
        rw [if_neg (by decide), if_pos trivial] at h
        rcases hrec : fwdWalk trim end_rev rest ref with e | ⟨crest, rprest⟩
        · rw [hrec] at h
          exact Except.noConfusion h
        · rw [hrec] at h
          simp only [Except.ok.injEq, Prod.mk.injEq] at h
          obtain ⟨h1, h2⟩ := h
          subst h1
          subst h2
          simp only [fwdWalk]
          rw [if_neg (by decide), if_pos trivial, ih ref crest rprest hrec]
      · by_cases hb2 : bt = 2
        · subst hb2
          by_cases hcut : end_rev - trim ≤ ref + bl
          · simp only [fwdWalk] at h
            rw [if_neg (by decide), if_neg (by decide), if_pos trivial, if_pos hcut] at h
            simp only [Except.ok.injEq, Prod.mk.injEq] at h
            obtain ⟨h1, h2⟩ := h
            subst h1
            subst h2
            rfl
          · simp only [fwdWalk] at h
            rw [if_neg (by decide), if_neg (by decide), if_pos trivial, if_neg hcut] at h
            rcases hrec : fwdWalk trim end_rev rest (ref + bl) with e | ⟨crest, rprest⟩
            · rw [hrec] at h
              exact Except.noConfusion h
            · rw [hrec] at h
              simp only [Except.ok.injEq, Prod.mk.injEq] at h
              obtain ⟨h1, h2⟩ := h
              subst h1
              subst h2
              simp only [fwdWalk]
              rw [if_neg (by decide), if_neg (by decide), if_pos trivial, if_neg hcut,
                ih (ref + bl) crest rprest hrec]
        · simp only [fwdWalk] at h
          rw [if_neg hb0, if_neg hb1, if_neg hb2] at h
          exact Except.noConfusion h

/-- The reverse cross-overhang walk is idempotent. -/
theorem revWalk_idem (trim start_fwd : Int) (c : List (Nat × Int)) (ref : Int)
    (k : List (Nat × Int)) (rf rd : Int)
    (h : revWalk trim start_fwd c ref = .ok (k, rf, rd)) :
    revWalk trim start_fwd k ref = .ok (k, rf, rd) := by
  induction c generalizing ref k rf rd with
  | nil =>
    simp only [revWalk, Except.ok.injEq, Prod.mk.injEq] at h
    obtain ⟨h1, h2, h3⟩ := h
    subst h1
    subst h2
    subst h3
    rfl
  | cons b rest ih =>
    obtain ⟨bt, bl⟩ := b
    by_cases hb0 : bt = 0
    · subst hb0
      by_cases hcut : ref - bl ≤ start_fwd + trim
      · simp only [revWalk] at h
        rw [if_pos trivial, if_pos hcut] at h
        simp only [Except.ok.injEq, Prod.mk.injEq] at h
        obtain ⟨h1, h2, h3⟩ := h
        subst h1
        subst h2
        subst h3
        simp only [revWalk]
        rw [if_pos trivial,
          if_pos (by omega : ref - (ref - (start_fwd + trim)) ≤ start_fwd + trim)]
      · simp only [revWalk] at h
        rw [if_pos trivial, if_neg hcut] at h
        rcases hrec : revWalk trim start_fwd rest (ref - bl) with e | ⟨crest, rfrest, rdrest⟩
        · rw [hrec] at h
          exact Except.noConfusion h
        · rw [hrec] at h
          simp only [Except.ok.injEq, Prod.mk.injEq] at h
          obtain ⟨h1, h2, h3⟩ := h
          subst h1
          subst h2
          subst h3
          simp only [revWalk]
          rw [if_pos trivial, if_neg hcut, ih (ref - bl) crest rfrest rdrest hrec]
    · by_cases hb1 : bt = 1
      · subst hb1
        simp only [revWalk] at h
        rw [if_neg (by decide), if_pos trivial] at h
        rcases hrec : revWalk trim start_fwd rest ref with e | ⟨crest, rfrest, rdrest⟩
        · rw [hrec] at h
          exact Except.noConfusion h
        · rw [hrec] at h
          simp only [Except.ok.injEq, Prod.mk.injEq] at h
          obtain ⟨h1, h2, h3⟩ := h
          subst h1
          subst h2
          subst h3
          simp only [revWalk]
          rw [if_neg (by decide), if_pos trivial, ih ref crest rfrest rdrest hrec]
      · by_cases hb2 : bt = 2
        · subst hb2
          by_cases hcut : ref - bl ≤ start_fwd + trim
          · simp only [revWalk] at h
            rw [if_neg (by decide), if_neg (by decide), if_pos trivial, if_pos hcut] at h
            simp only [Except.ok.injEq, Prod.mk.injEq] at h
            obtain ⟨h1, h2, h3⟩ := h
            subst h1
            subst h2
            subst h3
            rfl
          · simp only [revWalk] at h
            rw [if_neg (by decide), if_neg (by decide), if_pos trivial, if_neg hcut] at h
            rcases hrec : revWalk trim start_fwd rest (ref - bl) with e | ⟨crest, rfrest, rdrest⟩
            · rw [hrec] at h
              exact Except.noConfusion h
            · rw [hrec] at h
              simp only [Except.ok.injEq, Prod.mk.injEq] at h
              obtain ⟨h1, h2, h3⟩ := h
              subst h1
              subst h2
              subst h3
              simp only [revWalk]
              rw [if_neg (by decide), if_neg (by decide), if_pos trivial, if_neg hcut,
                ih (ref - bl) crest rfrest rdrest hrec]
        · simp only [revWalk] at h
          rw [if_neg hb0, if_neg hb1, if_neg hb2] at h
          exact Except.noConfusion h

/-- The reverse walk's final position plus the reference span of the kept
blocks equals its starting position: the kept cigar still ends at
end_rev, so the recomputed insert size is unchanged. -/
theorem revWalk_refspan (trim start_fwd : Int) (c : List (Nat × Int)) (ref : Int)
    (k : List (Nat × Int)) (rf rd : Int)
    (h : revWalk trim start_fwd c ref = .ok (k, rf, rd)) :
    rf + sumMD k = ref := by
  induction c generalizing ref k rf rd with
  | nil =>
    simp only [revWalk, Except.ok.injEq, Prod.mk.injEq] at h
    obtain ⟨h1, h2, h3⟩ := h
    subst h1
    subst h2
    simp [sumMD]
  | cons b rest ih =>
    obtain ⟨bt, bl⟩ := b
    by_cases hb0 : bt = 0
    · subst hb0
      by_cases hcut : ref - bl ≤ start_fwd + trim
      · simp only [revWalk] at h
        rw [if_pos trivial, if_pos hcut] at h
        simp only [Except.ok.injEq, Prod.mk.injEq] at h
        obtain ⟨h1, h2, h3⟩ := h
        subst h1
        subst h2
        simp [sumMD]
      · simp only [revWalk] at h
        rw [if_pos trivial, if_neg hcut] at h
        rcases hrec : revWalk trim start_fwd rest (ref - bl) with e | ⟨crest, rfrest, rdrest⟩
        · rw [hrec] at h
          exact Except.noConfusion h
        · rw [hrec] at h
          simp only [Except.ok.injEq, Prod.mk.injEq] at h
          obtain ⟨h1, h2, h3⟩ := h
          subst h1
          subst h2
          have hr := ih (ref - bl) crest rfrest rdrest hrec
          simp only [sumMD, if_pos (Or.inl trivial)]
          omega
    · by_cases hb1 : bt = 1
      · subst hb1
        simp only [revWalk] at h
        rw [if_neg (by decide), if_pos trivial] at h
        rcases hrec : revWalk trim start_fwd rest ref with e | ⟨crest, rfrest, rdrest⟩
        · rw [hrec] at h
          exact Except.noConfusion h
        · rw [hrec] at h
          simp only [Except.ok.injEq, Prod.mk.injEq] at h
          obtain ⟨h1, h2, h3⟩ := h
          subst h1
          subst h2
          have hr := ih ref crest rfrest rdrest hrec
          simp only [sumMD]
          rw [if_neg (by decide)]
          omega
      · by_cases hb2 : bt = 2
        · subst hb2
          by_cases hcut : ref - bl ≤ start_fwd + trim
          · simp only [revWalk] at h
            rw [if_neg (by decide), if_neg (by decide), if_pos trivial, if_pos hcut] at h
            simp only [Except.ok.injEq, Prod.mk.injEq] at h
            obtain ⟨h1, h2, h3⟩ := h
            subst h1
            subst h2
            simp [sumMD]
          · simp only [revWalk] at h
            rw [if_neg (by decide), if_neg (by decide), if_pos trivial, if_neg hcut] at h
            rcases hrec : revWalk trim start_fwd rest (ref - bl) with e | ⟨crest, rfrest, rdrest⟩
            · rw [hrec] at h
              exact Except.noConfusion h
            · rw [hrec] at h
              simp only [Except.ok.injEq, Prod.mk.injEq] at h
              obtain ⟨h1, h2, h3⟩ := h
              subst h1
              subst h2
              have hr := ih (ref - bl) crest rfrest rdrest hrec
              simp only [sumMD, if_pos (Or.inr trivial)]
              omega
        · simp only [revWalk] at h
          rw [if_neg hb0, if_neg hb1, if_neg hb2] at h
          exact Except.noConfusion h

/-- When the walk starts at or below the boundary and the block lengths are
non-negative, the forward walk consumes a non-negative read length. -/
theorem fwdWalk_rp_nonneg (trim end_rev : Int) (c : List (Nat × Int)) (ref : Int)
    (c' : List (Nat × Int)) (rp : Int)
    (hlen : ∀ b ∈ c, (0 : Int) ≤ b.2) (href : ref ≤ end_rev - trim)
    (h : fwdWalk trim end_rev c ref = .ok (c', rp)) : 0 ≤ rp := by
  induction c generalizing ref c' rp with
  | nil =>
    simp only [fwdWalk, Except.ok.injEq, Prod.mk.injEq] at h
    omega
  | cons b rest ih =>
    obtain ⟨bt, bl⟩ := b
    have hbl : (0 : Int) ≤ bl := hlen (bt, bl) (List.mem_cons_self _ _)
    have hrest : ∀ b ∈ rest, (0 : Int) ≤ b.2 := fun b hb => hlen b (List.mem_cons_of_mem _ hb)
    by_cases hb0 : bt = 0
    · subst hb0
      by_cases hcut : end_rev - trim ≤ ref + bl
      · simp only [fwdWalk] at h
        rw [if_pos trivial, if_pos hcut] at h
        simp only [Except.ok.injEq, Prod.mk.injEq] at h
        omega
      · simp only [fwdWalk] at h
        rw [if_pos trivial, if_neg hcut] at h
        rcases hrec : fwdWalk trim end_rev rest (ref + bl) with e | ⟨crest, rprest⟩
        · rw [hrec] at h
          exact Except.noConfusion h
        · rw [hrec] at h
          simp only [Except.ok.injEq, Prod.mk.injEq] at h
          have := ih (ref + bl) crest rprest hrest (by omega) hrec
          omega
    · by_cases hb1 : bt = 1
      · subst hb1
        simp only [fwdWalk] at h
        rw [if_neg (by decide), if_pos trivial] at h
        rcases hrec : fwdWalk trim end_rev rest ref with e | ⟨crest, rprest⟩
        · rw [hrec] at h
          exact Except.noConfusion h
        · rw [hrec] at h
          simp only [Except.ok.injEq, Prod.mk.injEq] at h
          have := ih ref crest rprest hrest href hrec
          omega
      · by_cases hb2 : bt = 2
        · subst hb2
          by_cases hcut : end_rev - trim ≤ ref + bl
          · simp only [fwdWalk] at h
            rw [if_neg (by decide), if_neg (by decide), if_pos trivial, if_pos hcut] at h
            simp only [Except.ok.injEq, Prod.mk.injEq] at h
            omega
          · simp only [fwdWalk] at h
            rw [if_neg (by decide), if_neg (by decide), if_pos trivial, if_neg hcut] at h
            rcases hrec : fwdWalk trim end_rev rest (ref + bl) with e | ⟨crest, rprest⟩
            · rw [hrec] at h
              exact Except.noConfusion h
            · rw [hrec] at h
              simp only [Except.ok.injEq, Prod.mk.injEq] at h
              have := ih (ref + bl) crest rprest hrest (by omega) hrec
              omega
        · simp only [fwdWalk] at h
          rw [if_neg hb0, if_neg hb1, if_neg hb2] at h
          exact Except.noConfusion h

/-- When the walk starts at or above the boundary and the block lengths are
non-negative, the reverse walk's consumed read length is between 0 and the
MATCH+INSERTION sum of the walked blocks. -/
theorem revWalk_rd_bounds (trim start_fwd : Int) (c : List (Nat × Int)) (ref : Int)
    (k : List (Nat × Int)) (rf rd : Int)
    (hlen : ∀ b ∈ c, (0 : Int) ≤ b.2) (href : start_fwd + trim ≤ ref)
    (h : revWalk trim start_fwd c ref = .ok (k, rf, rd)) :
    0 ≤ rd ∧ rd ≤ sumMI c := by
  induction c generalizing ref k rf rd with
  | nil =>
    simp only [revWalk, Except.ok.injEq, Prod.mk.injEq] at h
    simp [sumMI]
    omega
  | cons b rest ih =>
    obtain ⟨bt, bl⟩ := b
    have hbl : (0 : Int) ≤ bl := hlen (bt, bl) (List.mem_cons_self _ _)
    have hrest : ∀ b ∈ rest, (0 : Int) ≤ b.2 := fun b hb => hlen b (List.mem_cons_of_mem _ hb)
    have hsum := sumMI_nonneg rest hrest
    by_cases hb0 : bt = 0
    · subst hb0
      by_cases hcut : ref - bl ≤ start_fwd + trim
      · simp only [revWalk] at h
        rw [if_pos trivial, if_pos hcut] at h
        simp only [Except.ok.injEq, Prod.mk.injEq] at h
        simp only [sumMI, if_pos (Or.inl trivial)]
        omega
      · simp only [revWalk] at h
        rw [if_pos trivial, if_neg hcut] at h
        rcases hrec : revWalk trim start_fwd rest (ref - bl) with e | ⟨crest, rfrest, rdrest⟩
        · rw [hrec] at h
          exact Except.noConfusion h
        · rw [hrec] at h
          simp only [Except.ok.injEq, Prod.mk.injEq] at h
          have := ih (ref - bl) crest rfrest rdrest hrest (by omega) hrec
          simp only [sumMI, if_pos (Or.inl trivial)]
          omega
    · by_cases hb1 : bt = 1
      · subst hb1
        simp only [revWalk] at h
        rw [if_neg (by decide), if_pos trivial] at h
        rcases hrec : revWalk trim start_fwd rest ref with e | ⟨crest, rfrest, rdrest⟩
        · rw [hrec] at h
          exact Except.noConfusion h
        · rw [hrec] at h
          simp only [Except.ok.injEq, Prod.mk.injEq] at h
          have := ih ref crest rfrest rdrest hrest href hrec
          simp only [sumMI, if_pos (Or.inr trivial)]
          omega
      · by_cases hb2 : bt = 2
        · subst hb2
          by_cases hcut : ref - bl ≤ start_fwd + trim
          · simp only [revWalk] at h
            rw [if_neg (by decide), if_neg (by decide), if_pos trivial, if_pos hcut] at h
            simp only [Except.ok.injEq, Prod.mk.injEq] at h
            simp only [sumMI]
            rw [if_neg (by decide)]
            omega
          · simp only [revWalk] at h
            rw [if_neg (by decide), if_neg (by decide), if_pos trivial, if_neg hcut] at h
            rcases hrec : revWalk trim start_fwd rest (ref - bl) with e | ⟨crest, rfrest, rdrest⟩
            · rw [hrec] at h
              exact Except.noConfusion h
            · rw [hrec] at h
              simp only [Except.ok.injEq, Prod.mk.injEq] at h
              have := ih (ref - bl) crest rfrest rdrest hrest (by omega) hrec
              simp only [sumMI]
              rw [if_neg (by decide)]
              omega
        · simp only [revWalk] at h
          rw [if_neg hb0, if_neg hb1, if_neg hb2] at h
          exact Except.noConfusion h

theorem pysliceTake_idem {α : Type} (s : List α) (n : Int) (hn : 0 ≤ n) :
    pysliceTake (pysliceTake s n) n = pysliceTake s n := by
  simp [pysliceTake, hn, List.take_take]

theorem pysliceDrop_zero {α : Type} (s : List α) : pysliceDrop s 0 = s := by
  simp [pysliceDrop]

theorem pysliceDrop_length {α : Type} (s : List α) (n : Int) (h0 : 0 ≤ n)
    (h1 : n ≤ (s.length : Int)) :
    ((pysliceDrop s n).length : Int) = (s.length : Int) - n := by
  simp [pysliceDrop, h0]
  omega

/-- Core idempotence of the cross-overhang trimmer: on a (fwd, rev) pair
whose forward insert size is at least the trim amount, whose block lengths
are non-negative, and whose reverse CIGAR MATCH+INSERTION sum equals the
reverse sequence length, a second application reproduces the output of the
first exactly. -/
theorem trimCrossCore_idem (trim : Int) (f r f1 r1 : AlignedRead)
    (hisz : trim ≤ f.isize)
    (hflen : ∀ b ∈ f.cigar, (0 : Int) ≤ b.2)
    (hrlen : ∀ b ∈ r.cigar, (0 : Int) ≤ b.2)
    (hmi : sumMI r.cigar = (r.seq.length : Int))
    (h : trimCrossCore trim f r = .ok (f1, r1)) :
    trimCrossCore trim f1 r1 = .ok (f1, r1) := by
  rcases hF : fwdWalk trim (f.pos + f.isize) f.cigar f.pos with e | ⟨cF, rpF⟩
  · simp only [trimCrossCore, hF] at h
    exact Except.noConfusion h
  rcases hR : revWalk trim f.pos r.cigar.reverse (f.pos + f.isize) with e | ⟨cR, rfv, rdv⟩
  · simp only [trimCrossCore, hF, hR] at h
    exact Except.noConfusion h
  simp only [trimCrossCore, hF, hR] at h
  simp only [Except.ok.injEq, Prod.mk.injEq] at h
  obtain ⟨h1, h2⟩ := h
  have hspan := revWalk_refspan trim f.pos r.cigar.reverse (f.pos + f.isize) cR rfv rdv hR
  have hrp := fwdWalk_rp_nonneg trim (f.pos + f.isize) f.cigar f.pos cF rpF hflen
    (by omega) hF
  have hrd := revWalk_rd_bounds trim f.pos r.cigar.reverse (f.pos + f.isize) cR rfv rdv
    (fun b hb => hrlen b (List.mem_reverse.mp hb)) (by omega) hR
  rw [sumMI_reverse, hmi] at hrd
  have hisz1 : rfv + sumMD cR.reverse - f.pos = f.isize := by
    rw [sumMD_reverse]
    omega
  subst h1
  subst h2
  simp only [trimCrossCore]
  rw [hisz1]
  rw [fwdWalk_idem trim (f.pos + f.isize) f.cigar f.pos cF rpF hF]
  rw [List.reverse_reverse,
    revWalk_idem trim f.pos r.cigar.reverse (f.pos + f.isize) cR rfv rdv hR]
  simp only []
  have hslen : ((pysliceDrop r.seq ((r.seq.length : Int) - rdv)).length : Int) = rdv := by
    rw [pysliceDrop_length r.seq _ (by omega) (by omega)]
    omega
  rw [hslen, sub_self, pysliceDrop_zero, pysliceDrop_zero,
    pysliceTake_idem f.seq rpF hrp, pysliceTake_idem f.qual rpF hrp, hisz1]

/-- The cross-overhang trimmer never changes the strand flags. -/
theorem trimCrossCore_is_reverse (trim : Int) (f r fo ro : AlignedRead)
    (h : trimCrossCore trim f r = .ok (fo, ro)) :
    fo.is_reverse = f.is_reverse ∧ ro.is_reverse = r.is_reverse := by
  rcases hF : fwdWalk trim (f.pos + f.isize) f.cigar f.pos with e | ⟨cF, rpF⟩
  · simp only [trimCrossCore, hF] at h
    exact Except.noConfusion h
  rcases hR : revWalk trim f.pos r.cigar.reverse (f.pos + f.isize) with e | ⟨cR, rfv, rdv⟩
  · simp only [trimCrossCore, hF, hR] at h
    exact Except.noConfusion h
  simp only [trimCrossCore, hF, hR] at h
  simp only [Except.ok.injEq, Prod.mk.injEq] at h
  obtain ⟨h1, h2⟩ := h
  subst h1
  subst h2
  exact ⟨rfl, rfl⟩

/-- C4 (amended): for every pair whose forward read (selected by the
i_fwd convention) has insert size at least the trim amount, whose CIGAR
block lengths are non-negative, and whose reverse read satisfies the
MATCH+INSERTION = read-length invariant, a second application of
trim_read_pair_crossoverhangs with the same trim value returns the
already-trimmed pair unchanged in every field. -/
theorem C4_crossoverhang_idempotent (read_pair q : ReadPair) (trim : Int)
    (hisz : trim ≤ (if read_pair.1.is_reverse then read_pair.2 else read_pair.1).isize)
    (hflen : ∀ b ∈ (if read_pair.1.is_reverse then read_pair.2 else read_pair.1).cigar,
      (0 : Int) ≤ b.2)
    (hrlen : ∀ b ∈ (if read_pair.1.is_reverse then read_pair.1 else read_pair.2).cigar,
      (0 : Int) ≤ b.2)
    (hmi : sumMI (if read_pair.1.is_reverse then read_pair.1 else read_pair.2).cigar =
      ((if read_pair.1.is_reverse then read_pair.1 else read_pair.2).seq.length : Int))
    (h : trim_read_pair_crossoverhangs trim read_pair = .ok q) :
    trim_read_pair_crossoverhangs trim q = .ok q := by
  by_cases hrev : read_pair.1.is_reverse
  · simp only [hrev, if_true] at hisz hflen hrlen hmi
    simp only [trim_read_pair_crossoverhangs, hrev, if_true] at h
    rcases hc : trimCrossCore trim read_pair.2 read_pair.1 with e | ⟨fo, ro⟩
    · rw [hc] at h
      exact Except.noConfusion h
    · rw [hc] at h
      simp only [Except.ok.injEq] at h
      subst h
      have hco := trimCrossCore_idem trim read_pair.2 read_pair.1 fo ro hisz hflen hrlen hmi hc
      have hrev2 : ro.is_reverse = true := by
        rw [(trimCrossCore_is_reverse trim read_pair.2 read_pair.1 fo ro hc).2]
        exact hrev
      simp only [trim_read_pair_crossoverhangs, hrev2, if_true, hco]
  · simp only [hrev, if_false, Bool.false_eq_true] at hisz hflen hrlen hmi
    simp only [trim_read_pair_crossoverhangs, hrev, Bool.false_eq_true, if_false] at h
    rcases hc : trimCrossCore trim read_pair.1 read_pair.2 with e | ⟨fo, ro⟩
    · rw [hc] at h
      exact Except.noConfusion h
    · rw [hc] at h
      simp only [Except.ok.injEq] at h
      subst h
      have hco := trimCrossCore_idem trim read_pair.1 read_pair.2 fo ro hisz hflen hrlen hmi hc
      have hrev2 : fo.is_reverse = false := by
        rw [(trimCrossCore_is_reverse trim read_pair.1 read_pair.2 fo ro hc).1]
        simpa using hrev
      simp only [trim_read_pair_crossoverhangs, hrev2, Bool.false_eq_true, if_false, hco]

/-- Forward read of the C4 counterexample pair: a proper pair with insert
size 3, smaller than the trim amount 5. -/
def c4ReadA : AlignedRead :=
  { seq := List.replicate 10 'A', qual := List.replicate 10 70,
    cigar := [(0, 10)], pos := 0, mpos := 0, isize := 3, is_reverse := false }

/-- Reverse read of the C4 counterexample pair. -/
def c4ReadB : AlignedRead :=
  { seq := List.replicate 3 'A', qual := List.replicate 3 70,
    cigar := [(0, 3)], pos := 0, mpos := 0, isize := -3, is_reverse := true }

/-- C4 counterexample: a proper pair (integrity test passes, one forward
and one reverse read, forward start <= reverse start, positive forward
insert size) on which a second cross-overhang trim still shortens the
forward read: the claim's idempotence fails when the insert size is
smaller than the trim amount (the clip produces a negative-length block
and negative Python slice indices). -/
theorem C4_cex :
    (test_read_pair_integrity (c4ReadA, c4ReadB) = false ∧
     c4ReadA.is_reverse = false ∧ c4ReadB.is_reverse = true ∧
     c4ReadA.pos ≤ c4ReadB.pos ∧ 0 < c4ReadA.isize) ∧
    ∃ p1 p2, trim_read_pair_crossoverhangs 5 (c4ReadA, c4ReadB) = .ok p1 ∧
      trim_read_pair_crossoverhangs 5 p1 = .ok p2 ∧ p2.1.seq ≠ p1.1.seq := by
  exact ⟨by decide, _, _, rfl, rfl, by decide⟩

/-- Forward read of the C4 witness pair: insert size 60 >= trim 5. -/
def c4WitA : AlignedRead :=
  { seq := List.replicate 60 'A', qual := List.replicate 60 70,
    cigar := [(0, 60)], pos := 0, mpos := 20, isize := 60, is_reverse := false }

/-- Reverse read of the C4 witness pair. -/
def c4WitB : AlignedRead :=
  { seq := List.replicate 40 'A', qual := List.replicate 40 70,
    cigar := [(0, 40)], pos := 20, mpos := 0, isize := -60, is_reverse := true }

theorem C4_crossoverhang_idempotent_witness :
    ∃ q, trim_read_pair_crossoverhangs 5 (c4WitA, c4WitB) = .ok q ∧
      trim_read_pair_crossoverhangs 5 q = .ok q := by
  refine ⟨_, rfl, ?_⟩
  exact C4_crossoverhang_idempotent (c4WitA, c4WitB) _ 5 (by decide) (by decide)
    (by decide) (by decide) rfl

/-- C1 witness: the amended theorem applied to a concrete proper pair. -/
theorem C1_fix_then_integrity_witness :
    test_read_pair_integrity (fix_read_pair
      ({ seq := List.replicate 10 'A', qual := List.replicate 10 70,
         cigar := [(0, 10)], pos := 0, mpos := 0, isize := 0, is_reverse := false },
       { seq := List.replicate 10 'A', qual := List.replicate 10 70,
         cigar := [(0, 10)], pos := 5, mpos := 0, isize := 0, is_reverse := true })) = false :=
  C1_fix_then_integrity _ _ (by decide) (by decide) (by decide) (by decide) (by decide)
